import Mathlib

/-!
# NodeStack core data-exchange layer: a shallow embedding

This file embeds the three self-contained components of the NodeStack
admin dashboard (`src/utils/rcon.js`) in Lean 4 and proves properties of
the embedding:

* the RCON remote-command client (`RconClient`): packet framing,
  stream reassembly, request/response correlation, disconnect;
* the binary NBT decoder (`NbtReader`): cursor-based reads over a byte
  buffer, recursive tag decoding;
* the SNBT text converter (`parseSNBT`): a staged regex rewrite chain
  followed by strict JSON parsing.

Modelling conventions:

* Node `Buffer`s are `List Nat` with cells in `[0, 256)`; read helpers are
  total via `List.getD`, with the same range guards the Node buffer API
  enforces (an out-of-range read throws `ERR_OUT_OF_RANGE`; we model a
  throw as an `Except`/`Option` error outcome).
* JavaScript `Number` is modelled only where its IEEE-754 binary64 nature
  is observable: `jsNumber` rounds an integer to the nearest binary64
  value (ties to even), which is exactly what `Number(someBigInt)` does
  for 64-bit inputs.
* Asynchronous callbacks (promise resolution/rejection, socket writes,
  timer management) are modelled as explicit `Effect` values emitted by
  the state-transition functions of the client, in the order the
  JavaScript performs them.
-/

/- ### Byte-level primitives -/

/-- All cells of a Node buffer are unsigned bytes. -/
def ByteList (l : List Nat) : Prop := ∀ b ∈ l, b < 256

/-- Compose four bytes little-endian into an unsigned 32-bit value. -/
def u32le (b0 b1 b2 b3 : Nat) : Nat :=
  b0 + 256 * b1 + 65536 * b2 + 16777216 * b3

/-- Two's-complement reading of an unsigned 32-bit value
(`Buffer.readInt32LE` / `readInt32BE` sign behaviour). -/
def sign32 (u : Nat) : Int :=
  if u % 4294967296 < 2147483648 then (u % 4294967296 : Int)
  else (u % 4294967296 : Int) - 4294967296

/-- The four little-endian bytes written by `Buffer.writeInt32LE n`.
`writeInt32LE` requires `-2^31 ≤ n < 2^31` (it throws otherwise); in that
range the stored bytes are those of `n mod 2^32`. -/
def int32leBytes (n : Int) : List Nat :=
  let m := (n % 4294967296).toNat
  [m % 256, m / 256 % 256, m / 65536 % 256, m / 16777216 % 256]

/-- `buf.readInt32LE(off)`: all call sites in `RconClient.handleData` are
guarded by the `length >= 12` check, so the four cells exist there. -/
def readInt32LE (buf : List Nat) (off : Nat) : Int :=
  sign32 (u32le (buf.getD off 0) (buf.getD (off + 1) 0)
    (buf.getD (off + 2) 0) (buf.getD (off + 3) 0))

/-- Clamp a JavaScript index argument of `Buffer.subarray` to `[0, len]`:
negative values count back from the end. -/
def jsIdx (len : Nat) (i : Int) : Nat :=
  if i < 0 then (max 0 ((len : Int) + i)).toNat else min i.toNat len

/-- `buf.subarray(s, e)` (two-argument form). -/
def jsSubarray (buf : List Nat) (s e : Int) : List Nat :=
  (buf.take (jsIdx buf.length e)).drop (jsIdx buf.length s)

/-- `buf.subarray(s)` (one-argument form: up to the end). -/
def jsSubarrayFrom (buf : List Nat) (s : Int) : List Nat :=
  buf.drop (jsIdx buf.length s)

/- ### RCON packet framing (`RconClient.send`, lines 41-68)

`send` allocates `len + 4` zeroed bytes with `len = 10 + body.length`,
writes `len`, `id`, `type` little-endian at offsets 0, 4, 8, copies the
body at offset 12 and leaves the two trailing pad bytes zero. -/

/-- The exact wire bytes `RconClient.send` produces for one packet. -/
def encodePacket (id ty : Int) (body : List Nat) : List Nat :=
  int32leBytes (10 + body.length) ++ int32leBytes id ++ int32leBytes ty ++
    body ++ [0, 0]

/-- A well-formed wire packet: produced by the framing layer from an id and
type in `writeInt32LE` range and a body whose length field fits in a
(positive) signed 32-bit value. -/
def WfPacket (p : List Nat) : Prop :=
  ∃ id ty body, -2147483648 ≤ id ∧ id < 2147483648 ∧
    -2147483648 ≤ ty ∧ ty < 2147483648 ∧
    10 + (body.length : Int) < 2147483648 ∧ ByteList body ∧
    p = encodePacket id ty body

/-- `t` holds the bytes of an incomplete (or absent) trailing packet. -/
def PacketFrag (t : List Nat) : Prop :=
  t = [] ∨ ∃ q k, WfPacket q ∧ k < q.length ∧ t = q.take k

/- ### Stream reassembly (`RconClient.handleData`, lines 70-101)

The loop: while at least 12 bytes (`// Min packet size`) are buffered,
read the declared length `len` from offset 0; if fewer than `len + 4`
bytes are buffered, stop; otherwise slice one complete packet
(`subarray(0, len + 4)`), drop it from the buffer (`subarray(len + 4)`)
and process it.

The JavaScript loop is not total: a hostile length field of exactly `-4`
makes an iteration consume nothing and the loop spin forever.  The model
therefore carries fuel; `buf.length + 1` covers every run in which each
iteration removes at least one byte, which includes every well-formed
stream (each well-formed packet is at least 14 bytes). -/

/-- One-or-more iterations of the reassembly `while` loop, extracting the
complete packets in order and returning the residual buffer. -/
def processBufA : Nat → List Nat → List (List Nat) × List Nat
  | 0, buf => ([], buf)
  | f + 1, buf =>
    if 12 ≤ buf.length then
      let len := readInt32LE buf 0
      if (buf.length : Int) < len + 4 then ([], buf)
      else
        let pkt := jsSubarray buf 0 (len + 4)
        let rest := jsSubarrayFrom buf (len + 4)
        let pr := processBufA f rest
        (pkt :: pr.1, pr.2)
    else ([], buf)

/-- The reassembly step on a buffer. -/
def processBuf (buf : List Nat) : List (List Nat) × List Nat :=
  processBufA (buf.length + 1) buf

/-- `packet.readInt32LE(4)`: the request id of a decoded packet. -/
def packetId (pkt : List Nat) : Int := readInt32LE pkt 4

/-- `packet.readInt32LE(8)`: the type of a decoded packet. -/
def packetType (pkt : List Nat) : Int := readInt32LE pkt 8

/-- `packet.toString('utf8', 12, packet.length - 2)`, at the byte level:
`toString` clamps both ends into the buffer, which `take`/`drop` model
directly.  (The UTF-8 byte-to-string decoding itself is
representation-only and is kept at the byte level throughout.) -/
def packetBodyBytes (pkt : List Nat) : List Nat :=
  (pkt.take (pkt.length - 2)).drop 12

/- ### RCON session state and effects (`RconClient`, lines 3-113) -/

/-- The error values the client can reject a caller with.
`notConnected` is `new Error('Not connected')`, `rconTimeout` is
`new Error('RCON Timeout')`. -/
inductive RconError
  | notConnected
  | rconTimeout
  deriving DecidableEq

/-- Observable actions of the client, in program order: socket writes,
timer management, promise settlement, socket shutdown. -/
inductive Effect
  | write (bytes : List Nat)
  | rejectCaller (e : RconError)
  | setTimer (id : Int)
  | clearTimer (id : Int)
  | resolve (id : Int) (body : List Nat)
  | rejected (id : Int) (e : RconError)
  | socketEnd
  | socketDestroy
  deriving DecidableEq

/-- The mutable fields of one `RconClient` (constructor, lines 4-13).
The pending-request `Map` is modelled by its key list in insertion order;
a key's waiter and timer are identified by the key. -/
structure RconState where
  socketPresent : Bool
  requestId : Int
  isAuthenticated : Bool
  queue : List Int
  buffer : List Nat
  deriving DecidableEq

/-- `RconClient.send(type, body)` (lines 41-68): reject immediately when no
socket exists; otherwise take a fresh id, frame the packet, schedule the
5-second timeout, register the waiter and write the frame.  The
`isAuthenticated` flag is not consulted. -/
def RconState.send (st : RconState) (ty : Int) (body : List Nat) :
    RconState × List Effect :=
  if st.socketPresent = false then (st, [.rejectCaller .notConnected])
  else
    ({ st with requestId := st.requestId + 1, queue := st.queue ++ [st.requestId] },
     [.setTimer st.requestId, .write (encodePacket st.requestId ty body)])

/-- `RconClient.sendCommand(cmd)` (lines 103-105): `send(2, cmd)`. -/
def RconState.sendCommand (st : RconState) (cmd : List Nat) :
    RconState × List Effect :=
  st.send 2 cmd

/-- The 5-second timer callback for request `id` (lines 58-63): if the id is
still pending, drop it and reject that caller with `RCON Timeout`. -/
def RconState.onTimeout (st : RconState) (id : Int) : RconState × List Effect :=
  if id ∈ st.queue then
    ({ st with queue := st.queue.erase id }, [.rejected id .rconTimeout])
  else (st, [])

/-- `RconClient.disconnect()` (lines 107-112): if a socket exists, end and
destroy it; nothing else changes — in particular the pending queue is not
touched and nobody is rejected. -/
def RconState.disconnect (st : RconState) : RconState × List Effect :=
  if st.socketPresent then (st, [.socketEnd, .socketDestroy]) else (st, [])

/-- The socket `close` handler (lines 25-28): clear the auth flag and null
the socket; the pending queue is not touched. -/
def RconState.closeHandler (st : RconState) : RconState :=
  { st with isAuthenticated := false, socketPresent := false }

/-- Correlation for one decoded packet (lines 84-99): a pending id gets its
timer cleared, its entry removed and its waiter resolved with the packet
body; any other id (including the `-1` auth-failure sentinel, whose
branch is empty) is dropped. -/
def deliver (queue : List Int) (pkt : List Nat) : List Int × List Effect :=
  let id := packetId pkt
  if id ∈ queue then
    (queue.erase id, [.clearTimer id, .resolve id (packetBodyBytes pkt)])
  else (queue, [])

/-- Correlation over the decoded packets of one read event, in order,
accumulating effects in delivery order. -/
def deliverAll (queue : List Int) : List (List Nat) → List Int × List Effect
  | [] => (queue, [])
  | pkt :: pkts =>
    let d := deliver queue pkt
    let rest := deliverAll d.1 pkts
    (rest.1, d.2 ++ rest.2)

/-- The `data` event handler (lines 70-101): append the chunk to the
residual buffer, extract every complete packet, correlate each in order.
(The JavaScript interleaves extraction and correlation in one loop;
extraction never depends on the queue, so the two phases compose.) -/
def RconState.handleData (st : RconState) (data : List Nat) :
    RconState × List Effect :=
  let pr := processBuf (st.buffer ++ data)
  let d := deliverAll st.queue pr.1
  ({ st with buffer := pr.2, queue := d.1 }, d.2)

/-- Chunk-at-a-time reassembly: fold `processBuf` over arriving chunks,
accumulating the decoded packets and carrying the residual buffer. -/
def feedChunks (st : List (List Nat) × List Nat) (cs : List (List Nat)) :
    List (List Nat) × List Nat :=
  cs.foldl (fun acc c =>
    let pr := processBuf (acc.2 ++ c)
    (acc.1 ++ pr.1, pr.2)) st

/- ### Binary NBT decoder (`NbtReader`, lines 117-194)

The reader holds an immutable buffer and a mutable `offset`.  Primitive
reads are the Node `Buffer` accessors: each checked accessor throws
`ERR_OUT_OF_RANGE` when the requested cells are not all inside the
buffer, while `buffer.toString(enc, start, end)` silently clamps both
positions into the buffer.  A thrown read is an `.error`; the error value
carries the offset the reader holds after the throw, because
`readByte()` increments the offset *before* the throwing access
(`this.buffer.readInt8(this.offset++)`), unlike every other read. -/

/-- Decoder failures: a range-checked read outside the buffer, or the
`default` branch of `readTag` (`Unknown Tag Type`).  `noFuel` marks
exhaustion of the recursion budget of the model; the roundtrip theorem
`readTagA_encTag` shows the budget used by `parse` never exhausts on
complete well-formed input. -/
inductive NbtErr
  | outOfRange
  | unknownTag (t : Int)
  | noFuel
  deriving DecidableEq

/-- Result of a read: value plus cursor, or error plus cursor. -/
abbrev RRes (α : Type) := Except (NbtErr × Nat) (α × Nat)

/-- Two's-complement value of one unsigned byte (`readInt8`). -/
def int8val (u : Nat) : Int :=
  if u % 256 < 128 then (u % 256 : Int) else (u % 256 : Int) - 256

/-- Compose two bytes big-endian (`readUInt16BE`). -/
def u16be (b0 b1 : Nat) : Nat := 256 * b0 + b1

/-- Two's-complement reading of an unsigned 16-bit value (`readInt16BE`). -/
def sign16 (u : Nat) : Int :=
  if u % 65536 < 32768 then (u % 65536 : Int) else (u % 65536 : Int) - 65536

/-- Compose four bytes big-endian (`readUInt32BE` bit layout). -/
def u32be (b0 b1 b2 b3 : Nat) : Nat :=
  16777216 * b0 + 65536 * b1 + 256 * b2 + b3

/-- `readByte()` (line 122): `this.buffer.readInt8(this.offset++)`.  The
post-increment runs before the access, so a throw still leaves the
offset advanced by one. -/
def NbtReader.readByte (buf : List Nat) (off : Nat) : RRes Int :=
  if off < buf.length then .ok (int8val (buf.getD off 0), off + 1)
  else .error (.outOfRange, off + 1)

/-- `readShort()` (line 123): `readInt16BE(offset)` then `offset += 2`. -/
def NbtReader.readShort (buf : List Nat) (off : Nat) : RRes Int :=
  if off + 2 ≤ buf.length then
    .ok (sign16 (u16be (buf.getD off 0) (buf.getD (off + 1) 0)), off + 2)
  else .error (.outOfRange, off)

/-- `readInt()` (line 124): `readInt32BE(offset)` then `offset += 4`. -/
def NbtReader.readInt (buf : List Nat) (off : Nat) : RRes Int :=
  if off + 4 ≤ buf.length then
    .ok (sign32 (u32be (buf.getD off 0) (buf.getD (off + 1) 0)
      (buf.getD (off + 2) 0) (buf.getD (off + 3) 0)), off + 4)
  else .error (.outOfRange, off)

/-- `readLong()` (lines 125-130): two big-endian 32-bit halves combined as
`(BigInt(high) << 32n) | BigInt(low >>> 0)`.  `high * 2^32` has zero low
bits and `0 ≤ low >>> 0 < 2^32`, so the BigInt shift-or equals
`high * 2^32 + low`, the exact signed 64-bit value.  Both reads precede
`offset += 8`, so a throw leaves the offset unchanged. -/
def NbtReader.readLong (buf : List Nat) (off : Nat) : RRes Int :=
  if off + 8 ≤ buf.length then
    .ok (sign32 (u32be (buf.getD off 0) (buf.getD (off + 1) 0)
          (buf.getD (off + 2) 0) (buf.getD (off + 3) 0)) * 4294967296 +
        (u32be (buf.getD (off + 4) 0) (buf.getD (off + 5) 0)
          (buf.getD (off + 6) 0) (buf.getD (off + 7) 0) : Int), off + 8)
  else .error (.outOfRange, off)

/-- `readFloat()` (line 131): `readFloatBE` consumes four bytes.  The
decoded IEEE-754 value is observationally irrelevant to every claim, so
the model keeps the four raw bytes as the value. -/
def NbtReader.readFloat (buf : List Nat) (off : Nat) : RRes (List Nat) :=
  if off + 4 ≤ buf.length then
    .ok ((buf.take (off + 4)).drop off, off + 4)
  else .error (.outOfRange, off)

/-- `readDouble()` (line 132): `readDoubleBE` consumes eight bytes; raw
bytes kept as the value, as for `readFloat`. -/
def NbtReader.readDouble (buf : List Nat) (off : Nat) : RRes (List Nat) :=
  if off + 8 ≤ buf.length then
    .ok ((buf.take (off + 8)).drop off, off + 8)
  else .error (.outOfRange, off)

/-- `readString()` (lines 133-139): a checked `readUInt16BE` length
prefix, then `buffer.toString('utf8', offset, offset + len)` — which
clamps into the buffer and never throws — then `offset += len`
unconditionally.  A length prefix overrunning the buffer therefore
*succeeds*, returns the clamped bytes and pushes the offset past the
end.  The value is kept as the raw byte slice (UTF-8 decoding is
representation-only for the claims). -/
def NbtReader.readString (buf : List Nat) (off : Nat) : RRes (List Nat) :=
  if off + 2 ≤ buf.length then
    let len := u16be (buf.getD off 0) (buf.getD (off + 1) 0)
    .ok ((buf.take (off + 2 + len)).drop (off + 2), off + 2 + len)
  else .error (.outOfRange, off)

/- ### `Number(bigint)`: integer rounding to binary64 -/

/-- Number of halvings needed to bring `a` under `2^53` (the binary64
exponent above the 53-bit mantissa).  Fuel-structural so that it
evaluates by `decide`; 1100 halvings cover every finite binary64. -/
def f64ExpAux : Nat → Nat → Nat
  | 0, _ => 0
  | f + 1, a => if a < 9007199254740992 then 0 else f64ExpAux f (a / 2) + 1

/-- Round a natural number to the nearest binary64-representable integer
(round half to even), i.e. `Number(BigInt(a))` for `a < 2^1024`. -/
def roundF64Nat (a : Nat) : Nat :=
  let e := f64ExpAux 1100 a
  if e = 0 then a
  else
    let u := 2 ^ e
    let q := a / u
    let r := a % u
    let q2 := if u < 2 * r then q + 1 else if 2 * r < u then q else q + q % 2
    q2 * u

/-- `Number(n)` for a BigInt `n`: IEEE-754 round-to-nearest-even.  For
`2^53 ≤ |n|` this loses low bits; the result is always integral. -/
def jsNumber (n : Int) : Int :=
  if n < 0 then -(roundF64Nat (-n).toNat : Int) else (roundF64Nat n.toNat : Int)

/- ### The decoded value tree -/

/-- The generic recursive value `readTag` produces.  Numeric leaves hold
the JavaScript number actually stored: for tag 4 and the elements of tag
12 that is `Number(readLong())`, i.e. the 64-bit value *after* binary64
rounding.  Float/double leaves and strings hold their raw bytes. -/
inductive NbtValue
  | vnull
  | vbyte (i : Int)
  | vshort (i : Int)
  | vint (i : Int)
  | vlong (i : Int)
  | vfloat (bs : List Nat)
  | vdouble (bs : List Nat)
  | vstr (bs : List Nat)
  | vlist (xs : List NbtValue)
  | vcompound (fields : List (List Nat × NbtValue))
  | vbyteArr (xs : List Int)
  | vintArr (xs : List Int)
  | vlongArr (xs : List Int)

/-- JavaScript object assignment `obj[name] = v`: overwrite in place when
the key exists, append otherwise. -/
def objUpsert (fs : List (List Nat × NbtValue)) (k : List Nat) (v : NbtValue) :
    List (List Nat × NbtValue) :=
  match fs with
  | [] => [(k, v)]
  | (k', v') :: rest =>
    if k' = k then (k', v) :: rest else (k', v') :: objUpsert rest k v

/-- The `for(i<len)` loop of tag 7 (byte array): `len` comes from
`readInt` and a negative count yields zero iterations. -/
def readByteLoop (buf : List Nat) : Nat → Nat → List Int → RRes (List Int)
  | 0, off, acc => .ok (acc.reverse, off)
  | n + 1, off, acc =>
    match NbtReader.readByte buf off with
    | .ok (v, o) => readByteLoop buf n o (v :: acc)
    | .error e => .error e

/-- The element loop of tag 11 (int array). -/
def readIntLoop (buf : List Nat) : Nat → Nat → List Int → RRes (List Int)
  | 0, off, acc => .ok (acc.reverse, off)
  | n + 1, off, acc =>
    match NbtReader.readInt buf off with
    | .ok (v, o) => readIntLoop buf n o (v :: acc)
    | .error e => .error e

/-- The element loop of tag 12 (long array): each element is pushed as
`Number(this.readLong())`. -/
def readLongLoop (buf : List Nat) : Nat → Nat → List Int → RRes (List Int)
  | 0, off, acc => .ok (acc.reverse, off)
  | n + 1, off, acc =>
    match NbtReader.readLong buf off with
    | .ok (v, o) => readLongLoop buf n o (jsNumber v :: acc)
    | .error e => .error e

/-- The three recursion sites of `readTag`: decoding one tag body, the
element loop of a list (tag 9), and the field loop of a compound
(tag 10).  Folding them into one fuel-indexed function keeps the
recursion structural, so concrete runs reduce definitionally. -/
inductive NbtCall
  | tag (ty : Int)
  | elems (it : Int) (n : Nat) (acc : List NbtValue)
  | fields (acc : List (List Nat × NbtValue))

/-- `readTag(type)` (lines 140-187) together with its two inner loops,
fuel-indexed: `.tag ty` is the `switch` over the tag id (with the
`default` branch throwing `Unknown Tag Type`); `.elems` is the
`for(i<len)` loop of tag 9 decoding `n` more unnamed elements; `.fields`
is the `while(true)` loop of tag 10 reading `(type, name, value)`
triples until the 0 sentinel, assigning `obj[name] = value`. -/
def nbtRun : Nat → List Nat → NbtCall → Nat → RRes NbtValue
  | 0, _, _, off => .error (.noFuel, off)
  | f + 1, buf, .tag ty, off =>
    if ty = 0 then .ok (.vnull, off)
    else if ty = 1 then
      match NbtReader.readByte buf off with
      | .ok (v, o) => .ok (.vbyte v, o)
      | .error e => .error e
    else if ty = 2 then
      match NbtReader.readShort buf off with
      | .ok (v, o) => .ok (.vshort v, o)
      | .error e => .error e
    else if ty = 3 then
      match NbtReader.readInt buf off with
      | .ok (v, o) => .ok (.vint v, o)
      | .error e => .error e
    else if ty = 4 then
      match NbtReader.readLong buf off with
      | .ok (v, o) => .ok (.vlong (jsNumber v), o)
      | .error e => .error e
    else if ty = 5 then
      match NbtReader.readFloat buf off with
      | .ok (v, o) => .ok (.vfloat v, o)
      | .error e => .error e
    else if ty = 6 then
      match NbtReader.readDouble buf off with
      | .ok (v, o) => .ok (.vdouble v, o)
      | .error e => .error e
    else if ty = 7 then
      match NbtReader.readInt buf off with
      | .ok (n, o) =>
        match readByteLoop buf n.toNat o [] with
        | .ok (xs, o2) => .ok (.vbyteArr xs, o2)
        | .error e => .error e
      | .error e => .error e
    else if ty = 8 then
      match NbtReader.readString buf off with
      | .ok (s, o) => .ok (.vstr s, o)
      | .error e => .error e
    else if ty = 9 then
      match NbtReader.readByte buf off with
      | .ok (it, o1) =>
        match NbtReader.readInt buf o1 with
        | .ok (n, o2) => nbtRun f buf (.elems it n.toNat []) o2
        | .error e => .error e
      | .error e => .error e
    else if ty = 10 then nbtRun f buf (.fields []) off
    else if ty = 11 then
      match NbtReader.readInt buf off with
      | .ok (n, o) =>
        match readIntLoop buf n.toNat o [] with
        | .ok (xs, o2) => .ok (.vintArr xs, o2)
        | .error e => .error e
      | .error e => .error e
    else if ty = 12 then
      match NbtReader.readInt buf off with
      | .ok (n, o) =>
        match readLongLoop buf n.toNat o [] with
        | .ok (xs, o2) => .ok (.vlongArr xs, o2)
        | .error e => .error e
      | .error e => .error e
    else .error (.unknownTag ty, off)
  | _ + 1, _, .elems _ 0 acc, off => .ok (.vlist acc.reverse, off)
  | f + 1, buf, .elems it (n + 1) acc, off =>
    match nbtRun f buf (.tag it) off with
    | .ok (v, o) => nbtRun f buf (.elems it n (v :: acc)) o
    | .error e => .error e
  | f + 1, buf, .fields acc, off =>
    match NbtReader.readByte buf off with
    | .ok (t, o1) =>
      if t = 0 then .ok (.vcompound acc, o1)
      else
        match NbtReader.readString buf o1 with
        | .ok (nm, o2) =>
          match nbtRun f buf (.tag t) o2 with
          | .ok (v, o3) => nbtRun f buf (.fields (objUpsert acc nm v)) o3
          | .error e => .error e
        | .error e => .error e
    | .error e => .error e

/-- `readTag(type)` as called by `parse`. -/
def readTagA (f : Nat) (buf : List Nat) (ty : Int) (off : Nat) : RRes NbtValue :=
  nbtRun f buf (.tag ty) off

/-- `NbtReader.parse()` (lines 188-193): read the root tag type, return
null for an immediate end tag, otherwise read and discard the root name
and decode the root tag.  The fuel `4 * buf.length + 4` is a recursion
budget; `readTagA_encTag` below proves it ample on well-formed input. -/
def NbtReader.parse (buf : List Nat) : RRes NbtValue :=
  match NbtReader.readByte buf 0 with
  | .ok (t, o1) =>
    if t = 0 then .ok (.vnull, o1)
    else
      match NbtReader.readString buf o1 with
      | .ok (_, o2) => readTagA (4 * buf.length + 4) buf t o2
      | .error e => .error e
  | .error e => .error e

/- ### SNBT text converter (`parseSNBT`, lines 197-257)

`parseSNBT` runs seven global regex replacements over the input and then
`JSON.parse`, all inside one `try`; any failure (in practice: the
`JSON.parse` throw) is caught and converted to `null`.

Each replacement is embedded as a left-to-right scanner over the
original character list: at every position the specific pattern is
tried; on a match the replacement is emitted and scanning resumes after
the matched text, exactly as `String.replace` with a `/g` regex does.
Lookbehinds inspect the original preceding characters, which the scanner
carries along (reversed).  None of the seven patterns can match the
empty string, so one unit of fuel per input character suffices. -/

/-- The single-quote, backslash and double-quote characters. -/
def sqChar : Char := Char.ofNat 39

/-- Backslash. -/
def bsChar : Char := Char.ofNat 92

/-- Double quote. -/
def dqChar : Char := Char.ofNat 34

/-- Opening brace. -/
def obChar : Char := Char.ofNat 123

/-- Closing brace. -/
def cbChar : Char := Char.ofNat 125

/-- JavaScript regex `\s` (the WhiteSpace and LineTerminator sets). -/
def jsWsChar (c : Char) : Bool :=
  c = ' ' || c = Char.ofNat 9 || c = Char.ofNat 10 || c = Char.ofNat 11 ||
  c = Char.ofNat 12 || c = Char.ofNat 13 || c = Char.ofNat 160 ||
  c = Char.ofNat 0x1680 || (0x2000 ≤ c.toNat && c.toNat ≤ 0x200a) ||
  c = Char.ofNat 0x2028 || c = Char.ofNat 0x2029 || c = Char.ofNat 0x202f ||
  c = Char.ofNat 0x205f || c = Char.ofNat 0x3000 || c = Char.ofNat 0xfeff

/-- The key character class `[a-zA-Z0-9_.\-:]` of rewrite 2. -/
def isKeyChar (c : Char) : Bool :=
  c.isAlphanum || c = '_' || c = '.' || c = '-' || c = ':'

/-- The value character class `[a-zA-Z0-9_.:\-\+]` of rewrites 5 and 6. -/
def isValChar (c : Char) : Bool := isKeyChar c || c = '+'

/-- `s.data.isPrefixOf l` for a string literal pattern. -/
def startsWithStr (l : List Char) (s : String) : Bool := s.data.isPrefixOf l

/-- Length of the digit run at the head of `l`. -/
def digitRun (l : List Char) : Nat := (l.takeWhile Char.isDigit).length

/-- The generic `/g`-replacement driver: at each position of the original
text try the matcher (which sees the reversed original prefix for
lookbehinds and the remaining text); on a match emit the replacement and
resume after the match, otherwise keep the character.  A (never
occurring) zero-width match is kept defensively as a non-match. -/
def replaceScan (m : List Char → List Char → Option (Nat × List Char)) :
    Nat → List Char → List Char → List Char
  | 0, _, rest => rest
  | f + 1, pre, rest =>
    match rest with
    | [] => []
    | c :: cs =>
      match m pre rest with
      | some (k, rep) =>
        if k = 0 then c :: replaceScan m f (c :: pre) cs
        else rep ++ replaceScan m f ((rest.take k).reverse ++ pre) (rest.drop k)
      | none => c :: replaceScan m f (c :: pre) cs

/-- Run one global replacement over a whole text. -/
def runReplace (m : List Char → List Char → Option (Nat × List Char))
    (s : List Char) : List Char :=
  replaceScan m s.length [] s

/-- Content of a single-quoted literal after its opening quote:
`[^'\\]*(?:\\.[^'\\]*)*` followed by the closing quote.  A bare `'`
closes; `\` must be followed by a non-line-terminator (regex `.`); the
grammar is deterministic, so a failure here fails the whole match.
Returns the raw content and the consumed length including the closing
quote. -/
def sqContent : List Char → Option (List Char × Nat)
  | [] => none
  | c :: cs =>
    if c = sqChar then some ([], 1)
    else if c = bsChar then
      match cs with
      | [] => none
      | d :: ds =>
        if d = Char.ofNat 10 || d = Char.ofNat 13 || d = Char.ofNat 0x2028 ||
            d = Char.ofNat 0x2029 then none
        else
          match sqContent ds with
          | some (content, k) => some (c :: d :: content, k + 2)
          | none => none
    else
      match sqContent cs with
      | some (content, k) => some (c :: content, k + 1)
      | none => none

/-- `content.replace(/\\'/g, "'")`. -/
def unescapeSQ : List Char → List Char
  | [] => []
  | [c] => [c]
  | c :: d :: rest =>
    if c = bsChar ∧ d = sqChar then sqChar :: unescapeSQ rest
    else c :: unescapeSQ (d :: rest)

/-- `…​.replace(/"/g, '\\"')`. -/
def escapeDQ : List Char → List Char
  | [] => []
  | c :: rest =>
    if c = dqChar then bsChar :: dqChar :: escapeDQ rest
    else c :: escapeDQ rest

/-- Rewrite 0: `/(?<!\\)'([^'\\]*(?:\\.[^'\\]*)*)'/g` — a single-quoted
string not preceded by a backslash becomes a double-quoted one, with
`\'` unescaped and `"` escaped in the content. -/
def matchSQ (pre rest : List Char) : Option (Nat × List Char) :=
  match rest with
  | [] => none
  | c :: cs =>
    if c = sqChar ∧ pre.head? ≠ some bsChar then
      match sqContent cs with
      | some (content, k) =>
        some (k + 1, dqChar :: (escapeDQ (unescapeSQ content) ++ [dqChar]))
      | none => none
    else none

/-- Rewrite 1: `/\[[IBL];\s*/g → '['` — drop a typed-array marker, and the
whitespace the greedy `\s*` takes with it. -/
def matchArrType (_pre rest : List Char) : Option (Nat × List Char) :=
  match rest with
  | '[' :: t :: ';' :: cs =>
    if t = 'I' ∨ t = 'B' ∨ t = 'L' then
      some (3 + (cs.takeWhile jsWsChar).length, ['['])
    else none
  | _ => none

/-- Largest start index at which `key` occurs inside `m`
(`m.lastIndexOf(key)`); when the key does not occur the result 0 gives
the same empty `substring(0, ·)` prefix as JavaScript's `-1`. -/
def lastSubIdxAux (m key : List Char) : Nat → Nat
  | 0 => 0
  | j + 1 =>
    if ((m.drop (j + 1)).take key.length) = key then j + 1
    else lastSubIdxAux m key j

/-- `m.lastIndexOf(key)` for the replacement of rewrite 2. -/
def lastIndexOfList (m key : List Char) : Nat := lastSubIdxAux m key m.length

/-- The greedy key capture of rewrite 2 at a position just after the
`(?:^|\x7b|,)\s*` part: the capture class includes `:` itself, so the
backtracking greedy capture is the whole class run when it is followed
by `\s*:`, otherwise the run cut at its last interior colon.  Returns
the captured key and the consumed length including the matched colon. -/
def keyCapture (r1 : List Char) : Option (List Char × Nat) :=
  let run := r1.takeWhile isKeyChar
  if run.isEmpty then none
  else
    let after := r1.drop run.length
    let ws2 := (after.takeWhile jsWsChar).length
    if (after.drop ws2).head? = some ':' then
      some (run, run.length + ws2 + 1)
    else
      let i := lastIndexOfList run [':']
      if i = 0 then none else some (run.take i, i + 1)

/-- The replacement callback of rewrite 2:
`match.substring(0, match.lastIndexOf(key)) + `"` + key + `":` `. -/
def replaceKeyMatch (mtext key : List Char) : List Char :=
  mtext.take (lastIndexOfList mtext key) ++ dqChar :: (key ++ [dqChar, ':'])

/-- Rewrite 2: `/(?:^|\x7b|,)\s*([a-zA-Z0-9_.\-:]+)\s*:/g` with the
quoting callback — quote a bare key after start-of-text, `\x7b` or `,`. -/
def matchKey (pre rest : List Char) : Option (Nat × List Char) :=
  let tryAt : Nat → List Char → Option (Nat × List Char) := fun pfxLen afterPfx =>
    let ws1 := (afterPfx.takeWhile jsWsChar).length
    match keyCapture (afterPfx.drop ws1) with
    | some (key, kcons) =>
      let total := pfxLen + ws1 + kcons
      some (total, replaceKeyMatch (rest.take total) key)
    | none => none
  let alt2 : Option (Nat × List Char) :=
    match rest with
    | c :: cs => if c = obChar ∨ c = ',' then tryAt 1 cs else none
    | [] => none
  if pre.isEmpty then
    match tryAt 0 rest with
    | some r => some r
    | none => alt2
  else alt2

/-- Rewrite 3:
`/(-?\d+(?:\.\d+)?(?:[eE][+-]?\d+)?)[dfDF](?=[,\]\x7d\s])/g → '$1'` —
strip a float/double suffix before a delimiter.  Every quantifier here
is forced (the follow sets are disjoint from the digit class), so the
parse is deterministic. -/
def matchFloatSuffix (_pre rest : List Char) : Option (Nat × List Char) :=
  let sgn := if rest.head? = some '-' then 1 else 0
  let r1 := rest.drop sgn
  let d1 := digitRun r1
  if d1 = 0 then none
  else
    let r2 := r1.drop d1
    let frac :=
      match r2 with
      | '.' :: t => let d2 := digitRun t; if d2 = 0 then 0 else d2 + 1
      | _ => 0
    let r3 := r2.drop frac
    let expo :=
      match r3 with
      | e :: t =>
        if e = 'e' ∨ e = 'E' then
          let s2 := if t.head? = some '+' ∨ t.head? = some '-' then 1 else 0
          let d3 := digitRun (t.drop s2)
          if d3 = 0 then 0 else 1 + s2 + d3
        else 0
      | [] => 0
    let r4 := r3.drop expo
    match r4 with
    | sfx :: t2 =>
      if (sfx == 'd' || sfx == 'f' || sfx == 'D' || sfx == 'F') &&
          (match t2.head? with
           | some la => la == ',' || la == ']' || la == cbChar || jsWsChar la
           | none => false) then
        let numLen := sgn + d1 + frac + expo
        some (numLen + 1, rest.take numLen)
      else none
    | [] => none

/-- Rewrite 4: `/(-?\d+)[bsLBS](?=[,\]\x7d\s])/g → '$1'` — strip an
integer suffix before a delimiter. -/
def matchIntSuffix (_pre rest : List Char) : Option (Nat × List Char) :=
  let sgn := if rest.head? = some '-' then 1 else 0
  let r1 := rest.drop sgn
  let d1 := digitRun r1
  if d1 = 0 then none
  else
    match r1.drop d1 with
    | sfx :: t2 =>
      if (sfx == 'b' || sfx == 's' || sfx == 'L' || sfx == 'B' || sfx == 'S') &&
          (match t2.head? with
           | some la => la == ',' || la == ']' || la == cbChar || jsWsChar la
           | none => false) then
        some (sgn + d1 + 1, rest.take (sgn + d1))
      else none
    | [] => none

/-- The negative lookahead `(?!(?:true|false|null|-?\d|\[|\{|"))` of
rewrites 5 and 6: `true` when one alternative matches here, i.e. the
lookahead fails. -/
def negLookaheadVal (l : List Char) : Bool :=
  startsWithStr l "true" || startsWithStr l "false" || startsWithStr l "null" ||
  (match l with
   | c :: _ => c.isDigit || c = dqChar || c = '[' || c = obChar
   | [] => false) ||
  (match l with
   | c :: d :: _ => c = '-' && d.isDigit
   | _ => false)

/-- Rewrite 5:
`/:\s*(?!(?:true|false|null|-?\d|\[|\{|"))([a-zA-Z0-9_.:\-\+]+)(?=\s*[,\x7d\]])/g`
→ `': "$1"'` — quote a bare value after a colon.  Only the full class
run can satisfy the trailing lookahead (the class has no delimiter or
whitespace), so the capture is deterministic. -/
def matchColonVal (_pre rest : List Char) : Option (Nat × List Char) :=
  match rest with
  | ':' :: cs =>
    let ws := (cs.takeWhile jsWsChar).length
    let r1 := cs.drop ws
    if negLookaheadVal r1 then none
    else
      let run := r1.takeWhile isValChar
      if run.isEmpty then none
      else
        let r2 := r1.drop run.length
        let ws2 := (r2.takeWhile jsWsChar).length
        match (r2.drop ws2).head? with
        | some c =>
          if c = ',' ∨ c = cbChar ∨ c = ']' then
            some (1 + ws + run.length, ':' :: ' ' :: dqChar :: (run ++ [dqChar]))
          else none
        | none => none
  | _ => none

/-- Rewrite 6:
`/(?<=[\[,]\s*)(?!…)([a-zA-Z0-9_.:\-\+]+)(?=\s*[,\]])/g → '"$1"'` —
quote a bare value inside an array.  The variable-length lookbehind
holds exactly when the original characters before the match are some
whitespace preceded by `[` or `,`. -/
def matchArrVal (pre rest : List Char) : Option (Nat × List Char) :=
  match (pre.dropWhile jsWsChar).head? with
  | some c =>
    if c = '[' ∨ c = ',' then
      if negLookaheadVal rest then none
      else
        let run := rest.takeWhile isValChar
        if run.isEmpty then none
        else
          let r2 := rest.drop run.length
          let ws2 := (r2.takeWhile jsWsChar).length
          match (r2.drop ws2).head? with
          | some c2 =>
            if c2 = ',' ∨ c2 = ']' then some (run.length, dqChar :: (run ++ [dqChar]))
            else none
          | none => none
    else none
  | none => none

/-- The whole rewrite chain of `parseSNBT`, in source order. -/
def rewriteSNBT (s : List Char) : List Char :=
  runReplace matchArrVal (runReplace matchColonVal (runReplace matchIntSuffix
    (runReplace matchFloatSuffix (runReplace matchKey
      (runReplace matchArrType (runReplace matchSQ s))))))

/- ### Strict JSON parsing (`JSON.parse`)

A recursive-descent parser for the JSON grammar, with JavaScript object
semantics for duplicate keys (later assignment overwrites in place).
Numbers are modelled as exact rationals: JavaScript converts each
numeral to binary64, which agrees with the rational value whenever the
numeral is exactly representable — true of every numeral appearing in
the claims (dyadic fractions with few digits).  The recursion is
fuel-indexed for structural evaluation; each parser step passes to a
sub-step only after consuming input or descending into a subterm, so
`4 * length + 16` units are ample (concrete evaluations below confirm
it on every input a claim uses, and a fuel shortfall could only turn an
accepted input into a rejection, never change an accepted value). -/

/-- The generic value produced by the converter. -/
inductive JsonVal
  | jnull
  | jbool (b : Bool)
  | jnum (q : Rat)
  | jstr (s : List Char)
  | jarr (xs : List JsonVal)
  | jobj (fields : List (List Char × JsonVal))

/-- JavaScript object assignment for `JSON.parse` member lists. -/
def jsonUpsert (fs : List (List Char × JsonVal)) (k : List Char) (v : JsonVal) :
    List (List Char × JsonVal) :=
  match fs with
  | [] => [(k, v)]
  | (k', v') :: rest =>
    if k' = k then (k', v) :: rest else (k', v') :: jsonUpsert rest k v

/-- JSON insignificant whitespace (space, tab, line feed, carriage return). -/
def jsonWs (c : Char) : Bool :=
  c = ' ' || c = Char.ofNat 9 || c = Char.ofNat 10 || c = Char.ofNat 13

/-- Value of one hex digit, if it is one. -/
def hexVal (c : Char) : Option Nat :=
  if c.isDigit then some (c.toNat - 48)
  else if 'a' ≤ c ∧ c ≤ 'f' then some (c.toNat - 87)
  else if 'A' ≤ c ∧ c ≤ 'F' then some (c.toNat - 70)
  else none

/-- JSON string body after the opening quote: content and remainder after
the closing quote.  Raw control characters are rejected; the standard
escapes are decoded (`\uXXXX` as the code point — surrogate pairing of
UTF-16 halves is not modelled and no claim input uses it). -/
def pjString : List Char → Option (List Char × List Char)
  | [] => none
  | c :: cs =>
    if c = dqChar then some ([], cs)
    else if c.toNat < 32 then none
    else if c = bsChar then
      match cs with
      | [] => none
      | e :: es =>
        if e = dqChar ∨ e = bsChar ∨ e = '/' then
          match pjString es with
          | some (s, r) => some (e :: s, r)
          | none => none
        else if e = 'b' ∨ e = 'f' ∨ e = 'n' ∨ e = 'r' ∨ e = 't' then
          let d : Char :=
            if e = 'b' then Char.ofNat 8 else if e = 'f' then Char.ofNat 12
            else if e = 'n' then Char.ofNat 10 else if e = 'r' then Char.ofNat 13
            else Char.ofNat 9
          match pjString es with
          | some (s, r) => some (d :: s, r)
          | none => none
        else if e = 'u' then
          match es with
          | h1 :: h2 :: h3 :: h4 :: es2 =>
            match hexVal h1, hexVal h2, hexVal h3, hexVal h4 with
            | some a, some b, some c2, some d2 =>
              match pjString es2 with
              | some (s, r) =>
                some (Char.ofNat (4096 * a + 256 * b + 16 * c2 + d2) :: s, r)
              | none => none
            | _, _, _, _ => none
          | _ => none
        else none
    else
      match pjString cs with
      | some (s, r) => some (c :: s, r)
      | none => none

/-- Digit-run accumulator: value, digit count, and the structural
remainder. -/
def pjDigitsAcc : List Char → Nat → Nat → Nat × Nat × List Char
  | [], acc, k => (acc, k, [])
  | c :: cs, acc, k =>
    if c.isDigit then pjDigitsAcc cs (10 * acc + (c.toNat - 48)) (k + 1)
    else (acc, k, c :: cs)

/-- Exact rational value of a JSON numeral with mantissa `mant`, `fk`
fraction digits and decimal exponent `ex`. -/
def ratVal (mant : Nat) (fk : Nat) (ex : Int) : Rat :=
  if 0 ≤ ex - fk then mkRat (mant * 10 ^ (ex - fk).toNat) 1
  else mkRat mant (10 ^ (fk - ex).toNat)

/-- Negation of a rational through `mkRat` (the value of a minus sign). -/
def ratNeg (q : Rat) : Rat := mkRat (-q.num) q.den

/-- Optional exponent part of a JSON numeral; when absent or
non-grammatical the token ends before it. -/
def pjNumExp (mant : Nat) (fk : Nat) (l3 : List Char) : Option (Rat × List Char) :=
  match l3 with
  | e :: rest =>
    if e = 'e' ∨ e = 'E' then
      match rest with
      | '+' :: d :: t =>
        if d.isDigit then
          match pjDigitsAcc (d :: t) 0 0 with
          | (ev, _, l4) => some (ratVal mant fk (ev : Int), l4)
        else some (ratVal mant fk 0, l3)
      | '-' :: d :: t =>
        if d.isDigit then
          match pjDigitsAcc (d :: t) 0 0 with
          | (ev, _, l4) => some (ratVal mant fk (-(ev : Int)), l4)
        else some (ratVal mant fk 0, l3)
      | d :: t =>
        if d.isDigit then
          match pjDigitsAcc (d :: t) 0 0 with
          | (ev, _, l4) => some (ratVal mant fk (ev : Int), l4)
        else some (ratVal mant fk 0, l3)
      | [] => some (ratVal mant fk 0, l3)
    else some (ratVal mant fk 0, l3)
  | [] => some (ratVal mant fk 0, [])

/-- Optional fraction part after the integer part `iv`. -/
def pjNumAfterInt (iv : Nat) (l2 : List Char) : Option (Rat × List Char) :=
  match l2 with
  | '.' :: d :: t2 =>
    if d.isDigit then
      match pjDigitsAcc (d :: t2) 0 0 with
      | (fv, fk, l3) => pjNumExp (iv * 10 ^ fk + fv) fk l3
    else pjNumExp iv 0 ('.' :: d :: t2)
  | _ => pjNumExp iv 0 l2

/-- Unsigned JSON numeral: `0 | [1-9][0-9]*` then fraction and exponent.
A longer non-grammatical digit run (e.g. `01`) simply ends the token
early, and the stray characters then fail the surrounding context
exactly as in JavaScript. -/
def pjNumStart : List Char → Option (Rat × List Char)
  | [] => none
  | c :: cs =>
    if c = '0' then pjNumAfterInt 0 cs
    else if c.isDigit then
      match pjDigitsAcc (c :: cs) 0 0 with
      | (iv, _, l2) => pjNumAfterInt iv l2
    else none

/-- JSON numeral with optional leading minus: exact rational value and
structural remainder. -/
def pjNumber : List Char → Option (Rat × List Char)
  | '-' :: l1 =>
    match pjNumStart l1 with
    | some (q, r) => some (ratNeg q, r)
    | none => none
  | l => pjNumStart l

/-- Skip JSON insignificant whitespace, returning the structural suffix. -/
def skipJWs : List Char → List Char
  | [] => []
  | c :: cs => if jsonWs c then skipJWs cs else c :: cs

mutual

/-- One JSON value, leading whitespace allowed. -/
def pjVal : Nat → List Char → Option (JsonVal × List Char)
  | 0, _ => none
  | f + 1, l0 =>
    match skipJWs l0 with
    | [] => none
    | c :: cs =>
      if c = dqChar then
        match pjString cs with
        | some (s, r) => some (.jstr s, r)
        | none => none
      else if c = obChar then pjObj f cs
      else if c = '[' then pjArr f cs
      else if c = 't' then
        match cs with
        | 'r' :: 'u' :: 'e' :: r => some (.jbool true, r)
        | _ => none
      else if c = 'f' then
        match cs with
        | 'a' :: 'l' :: 's' :: 'e' :: r => some (.jbool false, r)
        | _ => none
      else if c = 'n' then
        match cs with
        | 'u' :: 'l' :: 'l' :: r => some (.jnull, r)
        | _ => none
      else
        match pjNumber (c :: cs) with
        | some (q, r) => some (.jnum q, r)
        | none => none

/-- Object body after the opening brace: empty object or member list. -/
def pjObj : Nat → List Char → Option (JsonVal × List Char)
  | 0, _ => none
  | f + 1, l0 =>
    match skipJWs l0 with
    | [] => none
    | c :: cs =>
      if c = cbChar then some (.jobj [], cs)
      else
        match pjMembers f (c :: cs) [] with
        | some (fs, r) => some (.jobj fs, r)
        | none => none

/-- One or more `"key": value` members separated by commas, ending at the
closing brace; members assign left to right (JavaScript object
semantics). -/
def pjMembers : Nat → List Char → List (List Char × JsonVal) →
    Option (List (List Char × JsonVal) × List Char)
  | 0, _, _ => none
  | f + 1, l0, acc =>
    match skipJWs l0 with
    | [] => none
    | c :: cs =>
      if c = dqChar then
        match pjString cs with
        | some (k, r1) =>
          match skipJWs r1 with
          | ':' :: r2 =>
            match pjVal f r2 with
            | some (v, r3) =>
              match skipJWs r3 with
              | ',' :: r4 => pjMembers f r4 (jsonUpsert acc k v)
              | c2 :: r4 =>
                if c2 = cbChar then some (jsonUpsert acc k v, r4) else none
              | [] => none
            | none => none
          | _ => none
        | none => none
      else none

/-- Array body after `[`: empty array or element list. -/
def pjArr : Nat → List Char → Option (JsonVal × List Char)
  | 0, _ => none
  | f + 1, l0 =>
    match skipJWs l0 with
    | [] => none
    | c :: cs =>
      if c = ']' then some (.jarr [], cs)
      else
        match pjElems f (c :: cs) [] with
        | some (xs, r) => some (.jarr xs, r)
        | none => none

/-- One or more array elements separated by commas, ending at `]`. -/
def pjElems : Nat → List Char → List JsonVal →
    Option (List JsonVal × List Char)
  | 0, _, _ => none
  | f + 1, l0, acc =>
    match pjVal f l0 with
    | some (v, r1) =>
      match skipJWs r1 with
      | ',' :: r2 => pjElems f r2 (v :: acc)
      | c :: r2 => if c = ']' then some ((v :: acc).reverse, r2) else none
      | [] => none
    | none => none

end

/-- `JSON.parse(text)`: one value with surrounding whitespace and nothing
else; any other shape throws (modelled as `none`).  The fuel is a
recursion budget: each unit is spent only on descending into a value, so
`4 * length + 16` is ample (concrete evaluations below exercise it, and
a shortfall could only reject, never change an accepted value). -/
def jsonParse (l : List Char) : Option JsonVal :=
  match pjVal (4 * l.length + 16) l with
  | some (v, rest) =>
    match skipJWs rest with
    | [] => some v
    | _ => none
  | none => none

/-- `parseSNBT(snbt)` (lines 197-257): the falsy guard
(`if (!snbt) return null` — `null`/`undefined` input or the empty
string), the rewrite chain, then strict parsing, with every thrown
failure caught and turned into `null`. -/
def parseSNBT (snbt : Option String) : Option JsonVal :=
  match snbt with
  | none => none
  | some s => if s = "" then none else jsonParse (rewriteSNBT s.data)

/- ### Framing round-trip helpers -/

theorem getD_append_len (A B : List Nat) (i : Nat) :
    (A ++ B).getD (A.length + i) 0 = B.getD i 0 := by
  induction A with
  | nil => simp
  | cons a as ih =>
    have h : (a :: as).length + i = (as.length + i) + 1 := by
      simp [List.length_cons]; omega
    simp only [List.cons_append, h, List.getD_cons_succ]
    exact ih

theorem int32leBytes_length (n : Int) : (int32leBytes n).length = 4 := rfl

/-- `writeInt32LE` then `readInt32LE` at the same place returns the value,
for any value in the checked range. -/
theorem readInt32LE_at (pre : List Nat) (n : Int) (rest : List Nat)
    (h1 : -2147483648 ≤ n) (h2 : n < 2147483648) :
    readInt32LE (pre ++ (int32leBytes n ++ rest)) pre.length = n := by
  have g : ∀ i : Nat, (pre ++ (int32leBytes n ++ rest)).getD (pre.length + i) 0 =
      (int32leBytes n ++ rest).getD i 0 := fun i => getD_append_len pre _ i
  have g0 := g 0
  have g1 := g 1
  have g2 := g 2
  have g3 := g 3
  simp only [Nat.add_zero] at g0
  unfold readInt32LE
  rw [g0, g1, g2, g3]
  have hnn : (0 : Int) ≤ n % 4294967296 := Int.emod_nonneg n (by norm_num)
  have hlt : n % 4294967296 < 4294967296 := Int.emod_lt_of_pos n (by norm_num)
  simp only [int32leBytes, List.getD_cons_zero, List.getD_cons_succ, List.cons_append,
    List.getD_cons_zero, List.getD_cons_succ]
  unfold u32le sign32
  have htn : ((n % 4294967296).toNat : Int) = n % 4294967296 := Int.toNat_of_nonneg hnn
  split <;> omega

theorem encodePacket_length (id ty : Int) (body : List Nat) :
    (encodePacket id ty body).length = 14 + body.length := by
  simp [encodePacket, int32leBytes]
  omega

/-- The id written at offset 4 is read back from offset 4. -/
theorem packetId_encode (id ty : Int) (body : List Nat)
    (h1 : -2147483648 ≤ id) (h2 : id < 2147483648) :
    packetId (encodePacket id ty body) = id := by
  have he : encodePacket id ty body =
      int32leBytes (10 + body.length) ++
        (int32leBytes id ++ (int32leBytes ty ++ body ++ [0, 0])) := by
    simp [encodePacket]
  have h4 : (4 : Nat) = (int32leBytes (10 + (body.length : Int))).length :=
    (int32leBytes_length _).symm
  rw [packetId, he, h4]
  exact readInt32LE_at _ id _ h1 h2

/-- The body slice `toString('utf8', 12, length - 2)` of a framed packet
is the body. -/
theorem packetBodyBytes_encode (id ty : Int) (body : List Nat) :
    packetBodyBytes (encodePacket id ty body) = body := by
  have he : encodePacket id ty body =
      (int32leBytes (10 + body.length) ++ int32leBytes id ++ int32leBytes ty) ++
        (body ++ [0, 0]) := by
    simp [encodePacket]
  have hlen : ((int32leBytes (10 + (body.length : Int)) ++ int32leBytes id ++
      int32leBytes ty)).length = 12 := by
    simp [int32leBytes]
  rw [packetBodyBytes, encodePacket_length, he]
  have h1 : 14 + body.length - 2 = 12 + body.length := by omega
  rw [h1, show (12 : Nat) + body.length = (int32leBytes (10 + (body.length : Int)) ++
      int32leBytes id ++ int32leBytes ty).length + body.length from by rw [hlen]]
  rw [List.take_append]
  rw [show (12 : Nat) = (int32leBytes (10 + (body.length : Int)) ++ int32leBytes id ++
      int32leBytes ty).length + 0 from by rw [hlen]]
  rw [List.drop_append]
  simp

/- ### Correlation helpers (`handleData` inner branch) -/

/-- A packet whose id is pending resolves that waiter with the packet's
body, clears its timer and removes its entry. -/
theorem deliver_matched (q : List Int) (id ty : Int) (body : List Nat)
    (h1 : -2147483648 ≤ id) (h2 : id < 2147483648) (hq : id ∈ q) :
    deliver q (encodePacket id ty body) =
      (q.erase id, [.clearTimer id, .resolve id body]) := by
  simp [deliver, packetId_encode id ty body h1 h2, packetBodyBytes_encode, hq]

/-- A packet whose id is not pending changes nothing and settles nobody. -/
theorem deliver_unmatched (q : List Int) (pkt : List Nat)
    (h : packetId pkt ∉ q) : deliver q pkt = (q, []) := by
  simp [deliver, h]

/-- Delivering any sequence of response packets with pairwise-distinct
pending ids resolves each id with its own body, in arrival order. -/
theorem deliverAll_resolves (resps : List (Int × List Nat)) (q : List Int)
    (hd : (resps.map Prod.fst).Nodup)
    (hm : ∀ r ∈ resps, r.1 ∈ q ∧ -2147483648 ≤ r.1 ∧ r.1 < 2147483648) :
    deliverAll q (resps.map fun r => encodePacket r.1 0 r.2) =
      (resps.foldl (fun acc r => acc.erase r.1) q,
       resps.flatMap fun r => [.clearTimer r.1, .resolve r.1 r.2]) := by
  induction resps generalizing q with
  | nil => rfl
  | cons r rs ih =>
    obtain ⟨hin, hl, hr⟩ := hm r (by simp)
    have hd2 : r.1 ∉ rs.map Prod.fst ∧ (rs.map Prod.fst).Nodup := by
      rw [List.map_cons, List.nodup_cons] at hd
      exact hd
    have hm' : ∀ s ∈ rs, s.1 ∈ q.erase r.1 ∧ -2147483648 ≤ s.1 ∧ s.1 < 2147483648 := by
      intro s hs
      obtain ⟨hsin, hsl, hsr⟩ := hm s (by simp [hs])
      refine ⟨?_, hsl, hsr⟩
      have hne : s.1 ≠ r.1 := by
        intro hcontra
        exact hd2.1 (hcontra ▸ List.mem_map_of_mem Prod.fst hs)
      exact (List.mem_erase_of_ne hne).mpr hsin
    simp only [List.map_cons, deliverAll,
      deliver_matched q r.1 0 r.2 hl hr hin]
    rw [ih (q.erase r.1) hd2.2 hm']
    simp

/- ### Boolean equality on `JsonVal` (nested inductive, so the derived
decidable equality is unavailable; a fuel-indexed comparator with a
soundness lemma lets concrete results be checked by `decide`). -/

mutual

/-- Fuel-indexed structural equality test on `JsonVal`. -/
def beqJsonF : Nat → JsonVal → JsonVal → Bool
  | 0, _, _ => false
  | f + 1, x, y =>
    match x, y with
    | .jnull, .jnull => true
    | .jbool a, .jbool b => a == b
    | .jnum a, .jnum b => a == b
    | .jstr a, .jstr b => a == b
    | .jarr xs, .jarr ys => beqJsonListF f xs ys
    | .jobj fs, .jobj gs => beqJsonFieldsF f fs gs
    | _, _ => false

/-- Elementwise equality test on value lists. -/
def beqJsonListF : Nat → List JsonVal → List JsonVal → Bool
  | 0, _, _ => false
  | _ + 1, [], [] => true
  | f + 1, x :: xs, y :: ys => beqJsonF f x y && beqJsonListF f xs ys
  | _ + 1, _, _ => false

/-- Pairwise equality test on member lists. -/
def beqJsonFieldsF : Nat → List (List Char × JsonVal) →
    List (List Char × JsonVal) → Bool
  | 0, _, _ => false
  | _ + 1, [], [] => true
  | f + 1, (k1, v1) :: fs, (k2, v2) :: gs =>
    k1 == k2 && beqJsonF f v1 v2 && beqJsonFieldsF f fs gs
  | _ + 1, _, _ => false

end

/-- A successful fuel-indexed comparison is an equality. -/
theorem beqJsonF_sound :
    ∀ f : Nat, (∀ x y, beqJsonF f x y = true → x = y) ∧
      (∀ xs ys, beqJsonListF f xs ys = true → xs = ys) ∧
      (∀ fs gs, beqJsonFieldsF f fs gs = true → fs = gs) := by
  intro f
  induction f with
  | zero =>
    refine ⟨?_, ?_, ?_⟩ <;> intro a b h <;> simp [beqJsonF, beqJsonListF, beqJsonFieldsF] at h
  | succ f ih =>
    refine ⟨?_, ?_, ?_⟩
    · intro x y h
      cases x <;> cases y <;> simp only [beqJsonF] at h <;> try simp at h
      case jnull.jnull => rfl
      case jbool.jbool a b => rw [h]
      case jnum.jnum a b => rw [h]
      case jstr.jstr a b => rw [h]
      case jarr.jarr xs ys => rw [ih.2.1 xs ys h]
      case jobj.jobj fs gs => rw [ih.2.2 fs gs h]
    · intro xs ys h
      cases xs <;> cases ys <;> simp only [beqJsonListF] at h <;> try simp at h
      case nil.nil => rfl
      case cons.cons x xs y ys =>
        rw [ih.1 x y h.1, ih.2.1 xs ys h.2]
    · intro fs gs h
      cases fs with
      | nil =>
        cases gs with
        | nil => rfl
        | cons g gs2 => simp [beqJsonFieldsF] at h
      | cons p fs2 =>
        cases gs with
        | nil =>
          obtain ⟨k1, v1⟩ := p
          simp [beqJsonFieldsF] at h
        | cons q gs2 =>
          obtain ⟨k1, v1⟩ := p
          obtain ⟨k2, v2⟩ := q
          simp only [beqJsonFieldsF, Bool.and_eq_true] at h
          obtain ⟨⟨hk, hv⟩, hrest⟩ := h
          rw [eq_of_beq hk, ih.1 v1 v2 hv, ih.2.2 fs2 gs2 hrest]

/-- Comparison lifted to the `Option` result of the converter. -/
def beqOptJson (a b : Option JsonVal) : Bool :=
  match a, b with
  | some x, some y => beqJsonF 64 x y
  | none, none => true
  | _, _ => false

/-- A successful lifted comparison is an equality. -/
theorem beqOptJson_sound (a b : Option JsonVal) (h : beqOptJson a b = true) :
    a = b := by
  cases a <;> cases b <;> simp [beqOptJson] at h ⊢
  exact (beqJsonF_sound 64).1 _ _ h

/- ### Claim theorems: converter -/

/-- C10: `convert` returns null for a `null`/`undefined` input and for the
empty string — the falsy guard `if (!snbt) return null` turns emptiness
into an ordinary failed conversion before any rewrite or parse runs. -/
theorem c10_convert_empty_and_null :
    parseSNBT none = none ∧ parseSNBT (some "") = none :=
  ⟨rfl, rfl⟩

/-- The malformed sample input of C4. -/
def c4Bad : String := "not valid \x7b at all"

set_option maxHeartbeats 8000000 in
set_option maxRecDepth 100000 in
/-- No rewrite fires on the malformed sample (no quote, bracket marker,
colon, digit or array context appears in a matchable position), so the
whole chain is the identity on it. -/
theorem rewrite_malformed_sample_fix :
    runReplace matchSQ c4Bad.data = c4Bad.data ∧
    runReplace matchArrType c4Bad.data = c4Bad.data ∧
    runReplace matchKey c4Bad.data = c4Bad.data ∧
    runReplace matchFloatSuffix c4Bad.data = c4Bad.data ∧
    runReplace matchIntSuffix c4Bad.data = c4Bad.data ∧
    runReplace matchColonVal c4Bad.data = c4Bad.data ∧
    runReplace matchArrVal c4Bad.data = c4Bad.data := by
  refine ⟨by decide, by decide, by decide, by decide, by decide, by decide, by decide⟩

set_option maxHeartbeats 8000000 in
set_option maxRecDepth 100000 in
/-- The malformed sample is not strict JSON, so parsing rejects it. -/
theorem jsonParse_malformed_sample :
    (jsonParse c4Bad.data).isNone = true := by
  decide

/-- C4: `convert` is total — for every input it returns a generic value or
null, never an exception (the whole body sits in one `try/catch` whose
handler returns null); in particular the malformed input
`"not valid \x7b at all"` converts to null. -/
theorem c4_convert_never_throws :
    parseSNBT (some c4Bad) = none ∧
    ∀ s : Option String, parseSNBT s = none ∨ ∃ v, parseSNBT s = some v := by
  obtain ⟨p0, p1, p2, p3, p4, p5, p6⟩ := rewrite_malformed_sample_fix
  constructor
  · simp only [parseSNBT]
    rw [if_neg (by decide), rewriteSNBT, p0, p1, p2, p3, p4, p5, p6]
    exact Option.isNone_iff_eq_none.mp jsonParse_malformed_sample
  · intro s
    cases h : parseSNBT s with
    | none => exact Or.inl rfl
    | some v => exact Or.inr ⟨v, rfl⟩

/-- The C7 sample input (the spec's entity-data example). -/
def c7Input : String :=
  "\x7bHealth:20.0f,Pos:[1.5d,64.0d,-2.25d],Inventory:[\x7bSlot:0b,id:\"minecraft:stone\",Count:1b\x7d]\x7d"

/-- The C7 sample after key quoting (rewrite 2). -/
def c7Keyed : String :=
  "\x7b\"Health\":20.0f,\"Pos\":[1.5d,64.0d,-2.25d],\"Inventory\":[\x7b\"Slot\":0b,\"id\":\"minecraft:stone\",\"Count\":1b\x7d]\x7d"

/-- The C7 sample after float-suffix stripping (rewrite 3). -/
def c7NoFloat : String :=
  "\x7b\"Health\":20.0,\"Pos\":[1.5,64.0,-2.25],\"Inventory\":[\x7b\"Slot\":0b,\"id\":\"minecraft:stone\",\"Count\":1b\x7d]\x7d"

/-- The C7 sample after integer-suffix stripping (rewrite 4): strict JSON. -/
def c7Json : String :=
  "\x7b\"Health\":20.0,\"Pos\":[1.5,64.0,-2.25],\"Inventory\":[\x7b\"Slot\":0,\"id\":\"minecraft:stone\",\"Count\":1\x7d]\x7d"

set_option maxHeartbeats 16000000 in
set_option maxRecDepth 100000 in
/-- Rewrite 0 (single quotes) does not fire on the sample. -/
theorem c7_pass0 : runReplace matchSQ c7Input.data = c7Input.data := by decide

set_option maxHeartbeats 16000000 in
set_option maxRecDepth 100000 in
/-- Rewrite 1 (typed-array markers) does not fire on the sample. -/
theorem c7_pass1 : runReplace matchArrType c7Input.data = c7Input.data := by decide

set_option maxHeartbeats 16000000 in
set_option maxRecDepth 100000 in
/-- Rewrite 2 quotes the five bare keys of the sample. -/
theorem c7_pass2 : runReplace matchKey c7Input.data = c7Keyed.data := by decide

set_option maxHeartbeats 16000000 in
set_option maxRecDepth 100000 in
/-- Rewrite 3 strips the `f`/`d` suffixes of the sample. -/
theorem c7_pass3 : runReplace matchFloatSuffix c7Keyed.data = c7NoFloat.data := by
  decide

set_option maxHeartbeats 16000000 in
set_option maxRecDepth 100000 in
/-- Rewrite 4 strips the `b` suffixes of the sample. -/
theorem c7_pass4 : runReplace matchIntSuffix c7NoFloat.data = c7Json.data := by
  decide

set_option maxHeartbeats 16000000 in
set_option maxRecDepth 100000 in
/-- Rewrite 5 (bare values after colons) does not fire on the rewritten
sample: every value is numeric, quoted or structural. -/
theorem c7_pass5 : runReplace matchColonVal c7Json.data = c7Json.data := by decide

set_option maxHeartbeats 16000000 in
set_option maxRecDepth 100000 in
/-- Rewrite 6 (bare array elements) does not fire on the rewritten sample. -/
theorem c7_pass6 : runReplace matchArrVal c7Json.data = c7Json.data := by decide

set_option maxHeartbeats 16000000 in
set_option maxRecDepth 100000 in
/-- Strict parsing of the rewritten sample yields the claimed structure. -/
theorem c7_parsed :
    jsonParse c7Json.data =
      some (.jobj
        [("Health".data, .jnum (mkRat 20 1)),
         ("Pos".data, .jarr
           [.jnum (mkRat 3 2), .jnum (mkRat 64 1), .jnum (mkRat (-9) 4)]),
         ("Inventory".data, .jarr
           [.jobj [("Slot".data, .jnum (mkRat 0 1)),
                   ("id".data, .jstr "minecraft:stone".data),
                   ("Count".data, .jnum (mkRat 1 1))]])]) :=
  beqOptJson_sound _ _ (by decide)

/-- C7: the staged rewrite chain plus strict parsing maps the sample
entity SNBT to the claimed structure: suffixes stripped, bare keys
quoted, nesting preserved. -/
theorem c7_convert_entity_example :
    parseSNBT (some c7Input) =
      some (.jobj
        [("Health".data, .jnum (mkRat 20 1)),
         ("Pos".data, .jarr
           [.jnum (mkRat 3 2), .jnum (mkRat 64 1), .jnum (mkRat (-9) 4)]),
         ("Inventory".data, .jarr
           [.jobj [("Slot".data, .jnum (mkRat 0 1)),
                   ("id".data, .jstr "minecraft:stone".data),
                   ("Count".data, .jnum (mkRat 1 1))]])]) := by
  simp only [parseSNBT]
  rw [if_neg (by decide), rewriteSNBT, c7_pass0, c7_pass1, c7_pass2, c7_pass3,
    c7_pass4, c7_pass5, c7_pass6]
  exact c7_parsed

/- ### Claim theorems: session -/

/-- C3 (amended): `disconnect()` ends and destroys the socket when one
exists and otherwise does nothing; it never settles a pending call (the
state, in particular the pending queue, is untouched, and the only
effects are the socket shutdown calls), and a `disconnect()` after the
close event (no socket) is a pure no-op.  Pending calls are left to
their own 5-second timers, which reject with `RCON Timeout`. -/
theorem c3_disconnect_amended :
    ∀ st : RconState,
      st.disconnect.1 = st ∧
      (st.socketPresent = true →
        st.disconnect = (st, [.socketEnd, .socketDestroy])) ∧
      (st.socketPresent = false → st.disconnect = (st, [])) ∧
      (∀ e ∈ st.disconnect.2, e = Effect.socketEnd ∨ e = Effect.socketDestroy) ∧
      st.closeHandler.queue = st.queue ∧
      (∀ id : Int, id ∈ st.queue →
        st.onTimeout id = ({ st with queue := st.queue.erase id },
          [.rejected id .rconTimeout])) := by
  intro st
  by_cases h : st.socketPresent = true
  · refine ⟨by simp [RconState.disconnect, h], by simp [RconState.disconnect, h], by simp [h],
      ?_, rfl, ?_⟩
    · intro e he
      simp [RconState.disconnect, h] at he
      rcases he with he | he
      · exact Or.inl he
      · exact Or.inr he
    · intro id hid
      simp [RconState.onTimeout, hid]
  · have h2 : st.socketPresent = false := by
      cases hsp : st.socketPresent
      · rfl
      · exact absurd hsp h
    refine ⟨by simp [RconState.disconnect, h2], by simp [h2], by simp [RconState.disconnect, h2],
      ?_, rfl, ?_⟩
    · intro e he
      simp [RconState.disconnect, h2] at he
    · intro id hid
      simp [RconState.onTimeout, hid]

/-- C3 counterexample: with one request pending (id 7), `disconnect()`
emits only the two socket shutdown calls — no rejection of any kind —
and the entry stays pending, contradicting "rejects all N pending calls
with ConnectionClosed" (no such settlement exists in the code). -/
theorem c3_disconnect_counterexample :
    (⟨true, 8, true, [7], []⟩ : RconState).disconnect =
      (⟨true, 8, true, [7], []⟩, [Effect.socketEnd, Effect.socketDestroy]) ∧
    Effect.rejected 7 RconError.notConnected ∉
      [Effect.socketEnd, Effect.socketDestroy] ∧
    Effect.rejected 7 RconError.rconTimeout ∉
      [Effect.socketEnd, Effect.socketDestroy] ∧
    (⟨true, 8, true, [7], []⟩ : RconState).disconnect.1.queue = [7] := by
  refine ⟨rfl, by decide, by decide, rfl⟩

/-- C8 (amended): `sendCommand` rejects with the `Not connected` error and
writes nothing exactly when no socket exists; whenever a socket exists —
`isAuthenticated` is never consulted, so also while the auth handshake
is unresolved — the command is framed and written and its id becomes
pending; a later response packet correlated by that id resolves the call
with that packet's body. -/
theorem c8_sendCommand_amended :
    ∀ (st : RconState) (cmd : List Nat),
      (st.socketPresent = false →
        st.sendCommand cmd = (st, [.rejectCaller .notConnected])) ∧
      (st.socketPresent = true →
        st.sendCommand cmd =
          ({ st with
              requestId := st.requestId + 1
              queue := st.queue ++ [st.requestId] },
           [.setTimer st.requestId,
            .write (encodePacket st.requestId 2 cmd)])) ∧
      (st.socketPresent = true → -2147483648 ≤ st.requestId →
        st.requestId < 2147483648 →
        ∀ rbody : List Nat,
          deliver (st.sendCommand cmd).1.queue (encodePacket st.requestId 0 rbody) =
            ((st.sendCommand cmd).1.queue.erase st.requestId,
             [.clearTimer st.requestId, .resolve st.requestId rbody])) := by
  intro st cmd
  refine ⟨fun h => by simp [RconState.sendCommand, RconState.send, h], ?_, ?_⟩
  · intro h
    simp [RconState.sendCommand, RconState.send, h]
  · intro h hl hr rbody
    exact deliver_matched _ st.requestId 0 rbody hl hr
      (by simp [RconState.sendCommand, RconState.send, h])

/-- C8 counterexample: in a connected but not-yet-authenticated state
(outside `Ready`), `sendCommand` does not fail — it frames and writes
the packet and registers the waiter, because the only guard is socket
existence. -/
theorem c8_sendCommand_counterexample :
    (⟨true, 1, false, [], []⟩ : RconState).sendCommand [104, 105] =
      (⟨true, 2, false, [1], []⟩,
       [Effect.setTimer 1, Effect.write (encodePacket 1 2 [104, 105])]) := by
  rfl

/-- C6: response correlation is by pending id only — a matching packet
resolves exactly its own waiter with its own body (timer cleared, entry
removed), a non-matching packet leaves the table and all waiters
untouched, and any number of responses arriving in any order (each id
pending, ids distinct) resolve each call with its own body. -/
theorem c6_correlation_by_id :
    (∀ (q : List Int) (id ty : Int) (body : List Nat),
      -2147483648 ≤ id → id < 2147483648 → id ∈ q →
      deliver q (encodePacket id ty body) =
        (q.erase id, [.clearTimer id, .resolve id body])) ∧
    (∀ (q : List Int) (pkt : List Nat), packetId pkt ∉ q →
      deliver q pkt = (q, [])) ∧
    (∀ (resps : List (Int × List Nat)) (q : List Int),
      (resps.map Prod.fst).Nodup →
      (∀ r ∈ resps, r.1 ∈ q ∧ -2147483648 ≤ r.1 ∧ r.1 < 2147483648) →
      deliverAll q (resps.map fun r => encodePacket r.1 0 r.2) =
        (resps.foldl (fun acc r => acc.erase r.1) q,
         resps.flatMap fun r => [.clearTimer r.1, .resolve r.1 r.2])) :=
  ⟨fun q id ty body h1 h2 hq => deliver_matched q id ty body h1 h2 hq,
   fun q pkt h => deliver_unmatched q pkt h,
   fun resps q hd hm => deliverAll_resolves resps q hd hm⟩

/- ### Claim theorems: decode cursor -/

/-- C9 (amended): the cursor never goes negative (it is a `Nat`), and
each primitive read behaves as follows.  `readShort`, `readInt`,
`readLong`, `readFloat`, `readDouble` advance by exactly their width and
stay inside the buffer on success, and fail leaving the offset
unchanged.  `readByte` advances by exactly one on success but *also*
advances by one when it fails (the post-increment runs before the
throwing access).  `readString` fails with the offset unchanged only at
its length prefix; with a readable prefix it always succeeds, advancing
by `2 + declaredLength` — which exceeds the buffer end whenever the
declared length overruns the remaining bytes, the string read itself
being clamped. -/
theorem c9_cursor_amended :
    ∀ (buf : List Nat) (off : Nat),
      (off < buf.length →
        NbtReader.readByte buf off = .ok (int8val (buf.getD off 0), off + 1) ∧
        off + 1 ≤ buf.length) ∧
      (¬ off < buf.length →
        NbtReader.readByte buf off = .error (.outOfRange, off + 1)) ∧
      (off + 2 ≤ buf.length →
        NbtReader.readShort buf off =
          .ok (sign16 (u16be (buf.getD off 0) (buf.getD (off + 1) 0)), off + 2)) ∧
      (¬ off + 2 ≤ buf.length →
        NbtReader.readShort buf off = .error (.outOfRange, off)) ∧
      (off + 4 ≤ buf.length →
        NbtReader.readInt buf off =
          .ok (sign32 (u32be (buf.getD off 0) (buf.getD (off + 1) 0)
            (buf.getD (off + 2) 0) (buf.getD (off + 3) 0)), off + 4)) ∧
      (¬ off + 4 ≤ buf.length →
        NbtReader.readInt buf off = .error (.outOfRange, off)) ∧
      (off + 8 ≤ buf.length →
        NbtReader.readLong buf off =
          .ok (sign32 (u32be (buf.getD off 0) (buf.getD (off + 1) 0)
              (buf.getD (off + 2) 0) (buf.getD (off + 3) 0)) * 4294967296 +
            (u32be (buf.getD (off + 4) 0) (buf.getD (off + 5) 0)
              (buf.getD (off + 6) 0) (buf.getD (off + 7) 0) : Int), off + 8)) ∧
      (¬ off + 8 ≤ buf.length →
        NbtReader.readLong buf off = .error (.outOfRange, off)) ∧
      (off + 4 ≤ buf.length →
        NbtReader.readFloat buf off = .ok ((buf.take (off + 4)).drop off, off + 4)) ∧
      (¬ off + 4 ≤ buf.length →
        NbtReader.readFloat buf off = .error (.outOfRange, off)) ∧
      (off + 8 ≤ buf.length →
        NbtReader.readDouble buf off = .ok ((buf.take (off + 8)).drop off, off + 8)) ∧
      (¬ off + 8 ≤ buf.length →
        NbtReader.readDouble buf off = .error (.outOfRange, off)) ∧
      (off + 2 ≤ buf.length →
        NbtReader.readString buf off =
          .ok ((buf.take (off + 2 + u16be (buf.getD off 0) (buf.getD (off + 1) 0))).drop (off + 2),
            off + 2 + u16be (buf.getD off 0) (buf.getD (off + 1) 0))) ∧
      (¬ off + 2 ≤ buf.length →
        NbtReader.readString buf off = .error (.outOfRange, off)) := by
  intro buf off
  refine ⟨fun h => ⟨by simp [NbtReader.readByte, h], by omega⟩,
    fun h => by simp [NbtReader.readByte, h],
    fun h => by simp [NbtReader.readShort, h],
    fun h => by simp [NbtReader.readShort, h],
    fun h => by simp [NbtReader.readInt, h],
    fun h => by simp [NbtReader.readInt, h],
    fun h => by simp [NbtReader.readLong, h],
    fun h => by simp [NbtReader.readLong, h],
    fun h => by simp [NbtReader.readFloat, h],
    fun h => by simp [NbtReader.readFloat, h],
    fun h => by simp [NbtReader.readDouble, h],
    fun h => by simp [NbtReader.readDouble, h],
    fun h => by simp [NbtReader.readString, h],
    fun h => by simp [NbtReader.readString, h]⟩

/-- C9 counterexample: on the two-byte buffer `[0, 5]` (a string length
prefix declaring five bytes with none present), `readString` *succeeds*
and moves the cursor to 7, past the buffer end 2 — breaking both
`offset ≤ length` and "advances by exactly the bytes consumed" (nothing
was consumed beyond the prefix); and on an empty buffer `readByte` fails
yet moves the cursor from 0 to 1 — breaking "fails without advancing". -/
theorem c9_cursor_counterexample :
    NbtReader.readString [0, 5] 0 = .ok ([], 7) ∧
    ¬ (7 : Nat) ≤ ([0, 5] : List Nat).length ∧
    NbtReader.readByte ([] : List Nat) 0 = .error (.outOfRange, 1) ∧
    (1 : Nat) ≠ 0 := by
  refine ⟨rfl, by simp, rfl, by simp⟩

/- ### Claim theorems: 64-bit integers -/

/-- C1 (the code violates the claim): decoding a 64-bit integer tag with
value `2^63 - 1 = 9223372036854775807` yields `9223372036854775808`,
because `readTag` case 4 wraps the exact `readLong()` BigInt in
`Number(...)`, rounding it to the nearest binary64.  The input buffer is
tag id 4, an empty name, and the eight bytes `7f ff ff ff ff ff ff ff`. -/
theorem c1_long_rounded_through_binary64 :
    NbtReader.parse [4, 0, 0, 127, 255, 255, 255, 255, 255, 255, 255] =
      .ok (.vlong 9223372036854775808, 11) ∧
    (9223372036854775808 : Int) ≠ 9223372036854775807 ∧
    jsNumber 9223372036854775807 = 9223372036854775808 := by
  refine ⟨rfl, by decide, by decide⟩

/- ### Claim C2: groundwork — well-formed NBT encodings

`decode`'s input contract speaks about buffers that encode a value tree.
The reference encoder below produces exactly the byte shapes `readTag`
consumes: big-endian two's-complement scalars, 16-bit-length-prefixed
strings, `itemType ++ count ++ elements` lists, `(type, name, value)*`
plus a 0 sentinel for compounds, and `count ++ elements` arrays. -/

/-- C2 counterexample groundwork is below; this is the concrete failure:
a buffer whose root is a string tag with a length field of 5 but only
two payload bytes.  The length field implies a read past the end, yet
`decode` *succeeds*, returning the clamped two-byte string — a partial
result and no `MalformedData` failure.  (`parse` ends at offset 10 on a
7-byte buffer because the clamped `toString` still advances the cursor
by the declared length.) -/
theorem c2_length_field_counterexample :
    NbtReader.parse [8, 0, 0, 0, 5, 104, 105] = .ok (.vstr [104, 105], 10) ∧
    ([8, 0, 0, 0, 5, 104, 105] : List Nat).length = 7 ∧ ¬ (10 : Nat) ≤ 7 :=
  ⟨rfl, rfl, by decide⟩

/-- One byte of a two's-complement value (`writeInt8` layout). -/
def byteBytes (i : Int) : List Nat := [(i % 256).toNat]

/-- Two big-endian bytes of a two's-complement 16-bit value. -/
def int16beBytes (i : Int) : List Nat :=
  [(i % 65536).toNat / 256 % 256, (i % 65536).toNat % 256]

/-- Four big-endian bytes of a two's-complement 32-bit value. -/
def int32beBytes (i : Int) : List Nat :=
  [(i % 4294967296).toNat / 16777216 % 256, (i % 4294967296).toNat / 65536 % 256,
   (i % 4294967296).toNat / 256 % 256, (i % 4294967296).toNat % 256]

/-- Eight big-endian bytes of a two's-complement 64-bit value. -/
def int64beBytes (i : Int) : List Nat :=
  [(i % 18446744073709551616).toNat / 72057594037927936 % 256,
   (i % 18446744073709551616).toNat / 281474976710656 % 256,
   (i % 18446744073709551616).toNat / 1099511627776 % 256,
   (i % 18446744073709551616).toNat / 4294967296 % 256,
   (i % 18446744073709551616).toNat / 16777216 % 256,
   (i % 18446744073709551616).toNat / 65536 % 256,
   (i % 18446744073709551616).toNat / 256 % 256,
   (i % 18446744073709551616).toNat % 256]

/-- A 16-bit length prefix followed by the raw bytes (the string shape
`readString` consumes). -/
def encStrBytes (s : List Nat) : List Nat :=
  [s.length / 256 % 256, s.length % 256] ++ s

/-- Abstract NBT documents, the source of well-formed encodings.  There
is no end-tag constructor: `TAG_End` appears only as the compound
sentinel, so every encodable value occupies at least one byte. -/
inductive Nbt
  | nbyte (i : Int)
  | nshort (i : Int)
  | nint (i : Int)
  | nlong (i : Int)
  | nfloat (bs : List Nat)
  | ndouble (bs : List Nat)
  | nstr (s : List Nat)
  | nlist (xs : List Nbt)
  | ncompound (fs : List (List Nat × Nbt))
  | nbyteArr (xs : List Int)
  | nintArr (xs : List Int)
  | nlongArr (xs : List Int)

/-- The wire tag id of a document node (the `switch` cases of `readTag`). -/
def tagId : Nbt → Int
  | .nbyte _ => 1
  | .nshort _ => 2
  | .nint _ => 3
  | .nlong _ => 4
  | .nfloat _ => 5
  | .ndouble _ => 6
  | .nstr _ => 8
  | .nlist _ => 9
  | .ncompound _ => 10
  | .nbyteArr _ => 7
  | .nintArr _ => 11
  | .nlongArr _ => 12

/-- The element-type byte of a list: the tag of its elements, or 0 for an
empty list. -/
def listItemType (xs : List Nbt) : Int :=
  match xs with
  | [] => 0
  | x :: _ => tagId x

/-- Big-endian 32-bit element bodies of an int array. -/
def encInts : List Int → List Nat
  | [] => []
  | i :: xs => int32beBytes i ++ encInts xs

/-- Big-endian 64-bit element bodies of a long array. -/
def encLongs : List Int → List Nat
  | [] => []
  | i :: xs => int64beBytes i ++ encLongs xs

mutual

/-- The encoded body of one tag (what `readTag` consumes for it). -/
def encTag : Nbt → List Nat
  | .nbyte i => byteBytes i
  | .nshort i => int16beBytes i
  | .nint i => int32beBytes i
  | .nlong i => int64beBytes i
  | .nfloat bs => bs
  | .ndouble bs => bs
  | .nstr s => encStrBytes s
  | .nlist xs => byteBytes (listItemType xs) ++ int32beBytes xs.length ++ encList xs
  | .ncompound fs => encFields fs ++ [0]
  | .nbyteArr xs => int32beBytes xs.length ++ xs.map (fun i => (i % 256).toNat)
  | .nintArr xs => int32beBytes xs.length ++ encInts xs
  | .nlongArr xs => int32beBytes xs.length ++ encLongs xs

/-- Concatenated element bodies of a list. -/
def encList : List Nbt → List Nat
  | [] => []
  | x :: xs => encTag x ++ encList xs

/-- Concatenated `(type, name, value)` triples of a compound. -/
def encFields : List (List Nat × Nbt) → List Nat
  | [] => []
  | (nm, v) :: fs => byteBytes (tagId v) ++ encStrBytes nm ++ encTag v ++ encFields fs

end

/-- A whole encoded document as `parse` reads it: root type byte, root
name, root body.  The spec fixes the root to a compound; `encodeRoot` is
stated for any node and the root-compound restriction enters through the
claims. -/
def encodeRoot (nm : List Nat) (v : Nbt) : List Nat :=
  byteBytes (tagId v) ++ encStrBytes nm ++ encTag v

/-- Well-formedness: every scalar in its two's-complement range, float
and double bodies of their exact widths, strings and names under the
16-bit length bound with byte-valued cells, counts within the positive
signed 32-bit range, and list elements all of the declared item type. -/
inductive WfNbt : Nbt → Prop
  | wbyte {i : Int} : -128 ≤ i → i < 128 → WfNbt (.nbyte i)
  | wshort {i : Int} : -32768 ≤ i → i < 32768 → WfNbt (.nshort i)
  | wint {i : Int} : -2147483648 ≤ i → i < 2147483648 → WfNbt (.nint i)
  | wlong {i : Int} : -9223372036854775808 ≤ i → i < 9223372036854775808 →
      WfNbt (.nlong i)
  | wfloat {bs : List Nat} : bs.length = 4 → ByteList bs → WfNbt (.nfloat bs)
  | wdouble {bs : List Nat} : bs.length = 8 → ByteList bs → WfNbt (.ndouble bs)
  | wstr {s : List Nat} : s.length < 65536 → ByteList s → WfNbt (.nstr s)
  | wlist {xs : List Nbt} : (xs.length : Int) < 2147483648 →
      (∀ x ∈ xs, tagId x = listItemType xs) → (∀ x ∈ xs, WfNbt x) →
      WfNbt (.nlist xs)
  | wcompound {fs : List (List Nat × Nbt)} :
      (∀ f ∈ fs, f.1.length < 65536 ∧ ByteList f.1) →
      (∀ f ∈ fs, WfNbt f.2) → WfNbt (.ncompound fs)
  | wbyteArr {xs : List Int} : (xs.length : Int) < 2147483648 →
      (∀ i ∈ xs, -128 ≤ i ∧ i < 128) → WfNbt (.nbyteArr xs)
  | wintArr {xs : List Int} : (xs.length : Int) < 2147483648 →
      (∀ i ∈ xs, -2147483648 ≤ i ∧ i < 2147483648) → WfNbt (.nintArr xs)
  | wlongArr {xs : List Int} : (xs.length : Int) < 2147483648 →
      (∀ i ∈ xs, -9223372036854775808 ≤ i ∧ i < 9223372036854775808) →
      WfNbt (.nlongArr xs)

mutual

/-- The value `readTag` produces for a well-formed encoding: scalars as
read back (64-bit integers through `Number`'s binary64 rounding), raw
bytes for floats, doubles and strings, and compound fields assigned in
order with JavaScript object semantics. -/
def decodeVal : Nbt → NbtValue
  | .nbyte i => .vbyte i
  | .nshort i => .vshort i
  | .nint i => .vint i
  | .nlong i => .vlong (jsNumber i)
  | .nfloat bs => .vfloat bs
  | .ndouble bs => .vdouble bs
  | .nstr s => .vstr s
  | .nlist xs => .vlist (decodeList xs)
  | .ncompound fs => .vcompound (decodeFields [] fs)
  | .nbyteArr xs => .vbyteArr xs
  | .nintArr xs => .vintArr xs
  | .nlongArr xs => .vlongArr (xs.map jsNumber)

/-- Elementwise decoded values of a list. -/
def decodeList : List Nbt → List NbtValue
  | [] => []
  | x :: xs => decodeVal x :: decodeList xs

/-- Decoded compound members, assigned left to right onto `acc`. -/
def decodeFields (acc : List (List Nat × NbtValue)) :
    List (List Nat × Nbt) → List (List Nat × NbtValue)
  | [] => acc
  | (nm, v) :: fs => decodeFields (objUpsert acc nm (decodeVal v)) fs

end

mutual

/-- Recursion budget of `nbtRun` on a node's complete encoding: one frame
for the tag dispatch, one per loop entry, one per loop iteration plus
the element's own budget. -/
def nbtCost : Nbt → Nat
  | .nbyte _ => 1
  | .nshort _ => 1
  | .nint _ => 1
  | .nlong _ => 1
  | .nfloat _ => 1
  | .ndouble _ => 1
  | .nstr _ => 1
  | .nlist xs => 2 + nbtCostList xs
  | .ncompound fs => 2 + nbtCostFields fs
  | .nbyteArr _ => 1
  | .nintArr _ => 1
  | .nlongArr _ => 1

/-- Budget of a list's element loop. -/
def nbtCostList : List Nbt → Nat
  | [] => 0
  | x :: xs => 1 + nbtCost x + nbtCostList xs

/-- Budget of a compound's field loop. -/
def nbtCostFields : List (List Nat × Nbt) → Nat
  | [] => 0
  | (_, v) :: fs => 1 + nbtCost v + nbtCostFields fs

end

/- ### Primitive reads over an encoded region -/

theorem getD_of_drop (buf l : List Nat) (off i : Nat) (h : buf.drop off = l) :
    buf.getD (off + i) 0 = l.getD i 0 := by
  rw [List.getD_eq_getElem?_getD, List.getD_eq_getElem?_getD, ← h,
    List.getElem?_drop]

theorem length_of_drop (buf l : List Nat) (off : Nat) (h : buf.drop off = l) :
    buf.length - off = l.length := by
  have := congrArg List.length h
  simpa using this

/-- `readByte` over a byte cell in range. -/
theorem readByte_at (buf : List Nat) (off b : Nat) (rest : List Nat)
    (h : buf.drop off = b :: rest) :
    NbtReader.readByte buf off = .ok (int8val b, off + 1) := by
  have hl := length_of_drop buf _ off h
  simp only [List.length_cons] at hl
  have hg := getD_of_drop buf _ off 0 h
  simp only [Nat.add_zero, List.getD_cons_zero] at hg
  unfold NbtReader.readByte
  rw [if_pos (by omega), hg]

/-- `readByte` decodes an encoded signed byte. -/
theorem readByte_enc (buf : List Nat) (off : Nat) (i : Int) (rest : List Nat)
    (h : buf.drop off = byteBytes i ++ rest)
    (h1 : -128 ≤ i) (h2 : i < 128) :
    NbtReader.readByte buf off = .ok (i, off + 1) := by
  rw [readByte_at buf off _ rest (by simpa [byteBytes] using h)]
  have hi : int8val (i % 256).toNat = i := by
    unfold int8val
    split <;> omega
  rw [hi]

/-- `readShort` decodes an encoded signed 16-bit value. -/
theorem readShort_enc (buf : List Nat) (off : Nat) (i : Int) (rest : List Nat)
    (h : buf.drop off = int16beBytes i ++ rest)
    (h1 : -32768 ≤ i) (h2 : i < 32768) :
    NbtReader.readShort buf off = .ok (i, off + 2) := by
  have hl := length_of_drop buf _ off h
  simp only [int16beBytes, List.length_append, List.length_cons, List.length_nil] at hl
  have hg0 := getD_of_drop buf _ off 0 h
  have hg1 := getD_of_drop buf _ off 1 h
  simp only [Nat.add_zero, int16beBytes, List.cons_append, List.nil_append,
    List.getD_cons_zero, List.getD_cons_succ] at hg0 hg1
  unfold NbtReader.readShort
  rw [if_pos (by omega), hg0, hg1]
  have : sign16 (u16be ((i % 65536).toNat / 256 % 256) ((i % 65536).toNat % 256)) = i := by
    unfold sign16 u16be
    split <;> omega
  rw [this]

/-- `readInt` decodes an encoded signed 32-bit value. -/
theorem readInt_enc (buf : List Nat) (off : Nat) (i : Int) (rest : List Nat)
    (h : buf.drop off = int32beBytes i ++ rest)
    (h1 : -2147483648 ≤ i) (h2 : i < 2147483648) :
    NbtReader.readInt buf off = .ok (i, off + 4) := by
  have hl := length_of_drop buf _ off h
  simp only [int32beBytes, List.length_append, List.length_cons, List.length_nil] at hl
  have hg0 := getD_of_drop buf _ off 0 h
  have hg1 := getD_of_drop buf _ off 1 h
  have hg2 := getD_of_drop buf _ off 2 h
  have hg3 := getD_of_drop buf _ off 3 h
  simp only [Nat.add_zero, int32beBytes, List.cons_append, List.nil_append,
    List.getD_cons_zero, List.getD_cons_succ] at hg0 hg1 hg2 hg3
  unfold NbtReader.readInt
  rw [if_pos (by omega), hg0, hg1, hg2, hg3]
  have : sign32 (u32be ((i % 4294967296).toNat / 16777216 % 256)
      ((i % 4294967296).toNat / 65536 % 256) ((i % 4294967296).toNat / 256 % 256)
      ((i % 4294967296).toNat % 256)) = i := by
    unfold sign32 u32be
    split <;> omega
  rw [this]

set_option maxHeartbeats 3200000 in
/-- `readLong` decodes an encoded signed 64-bit value exactly. -/
theorem readLong_enc (buf : List Nat) (off : Nat) (i : Int) (rest : List Nat)
    (h : buf.drop off = int64beBytes i ++ rest)
    (h1 : -9223372036854775808 ≤ i) (h2 : i < 9223372036854775808) :
    NbtReader.readLong buf off = .ok (i, off + 8) := by
  have hl := length_of_drop buf _ off h
  simp only [int64beBytes, List.length_append, List.length_cons, List.length_nil] at hl
  have hg0 := getD_of_drop buf _ off 0 h
  have hg1 := getD_of_drop buf _ off 1 h
  have hg2 := getD_of_drop buf _ off 2 h
  have hg3 := getD_of_drop buf _ off 3 h
  have hg4 := getD_of_drop buf _ off 4 h
  have hg5 := getD_of_drop buf _ off 5 h
  have hg6 := getD_of_drop buf _ off 6 h
  have hg7 := getD_of_drop buf _ off 7 h
  simp only [Nat.add_zero, int64beBytes, List.cons_append, List.nil_append,
    List.getD_cons_zero, List.getD_cons_succ] at hg0 hg1 hg2 hg3 hg4 hg5 hg6 hg7
  unfold NbtReader.readLong
  rw [if_pos (by omega), hg0, hg1, hg2, hg3, hg4, hg5, hg6, hg7]
  have : sign32 (u32be ((i % 18446744073709551616).toNat / 72057594037927936 % 256)
        ((i % 18446744073709551616).toNat / 281474976710656 % 256)
        ((i % 18446744073709551616).toNat / 1099511627776 % 256)
        ((i % 18446744073709551616).toNat / 4294967296 % 256)) * 4294967296 +
      (u32be ((i % 18446744073709551616).toNat / 16777216 % 256)
        ((i % 18446744073709551616).toNat / 65536 % 256)
        ((i % 18446744073709551616).toNat / 256 % 256)
        ((i % 18446744073709551616).toNat % 256) : Int) = i := by
    unfold sign32 u32be
    split <;> omega
  rw [this]

/-- `readFloat` returns the four raw bytes of the region. -/
theorem readFloat_at (buf : List Nat) (off : Nat) (bs rest : List Nat)
    (h : buf.drop off = bs ++ rest) (hb : bs.length = 4) :
    NbtReader.readFloat buf off = .ok (bs, off + 4) := by
  have hl := length_of_drop buf _ off h
  simp only [List.length_append, hb] at hl
  unfold NbtReader.readFloat
  rw [if_pos (by omega)]
  have hv : (buf.take (off + 4)).drop off = bs := by
    rw [← List.take_drop, h, ← hb]
    apply List.take_left
  rw [hv]

/-- `readDouble` returns the eight raw bytes of the region. -/
theorem readDouble_at (buf : List Nat) (off : Nat) (bs rest : List Nat)
    (h : buf.drop off = bs ++ rest) (hb : bs.length = 8) :
    NbtReader.readDouble buf off = .ok (bs, off + 8) := by
  have hl := length_of_drop buf _ off h
  simp only [List.length_append, hb] at hl
  unfold NbtReader.readDouble
  rw [if_pos (by omega)]
  have hv : (buf.take (off + 8)).drop off = bs := by
    rw [← List.take_drop, h, ← hb]
    apply List.take_left
  rw [hv]

/-- `readString` decodes a complete length-prefixed string region. -/
theorem readString_enc (buf : List Nat) (off : Nat) (s rest : List Nat)
    (h : buf.drop off = encStrBytes s ++ rest) (hs : s.length < 65536) :
    NbtReader.readString buf off = .ok (s, off + 2 + s.length) := by
  have hl := length_of_drop buf _ off h
  simp only [encStrBytes, List.length_append, List.length_cons, List.length_nil] at hl
  have hg0 := getD_of_drop buf _ off 0 h
  have hg1 := getD_of_drop buf _ off 1 h
  simp only [Nat.add_zero, encStrBytes, List.cons_append, List.nil_append,
    List.getD_cons_zero, List.getD_cons_succ] at hg0 hg1
  have hdrop2 : buf.drop (off + 2) = s ++ rest := by
    rw [← List.drop_drop, h]
    simp [encStrBytes]
  have hL : u16be (s.length / 256 % 256) (s.length % 256) = s.length := by
    unfold u16be
    omega
  have hv : (buf.take (off + 2 + s.length)).drop (off + 2) = s := by
    rw [← List.take_drop, hdrop2]
    apply List.take_left
  unfold NbtReader.readString
  rw [if_pos (by omega)]
  simp only [hg0, hg1, hL, hv]

/- ### Structural facts about encodings -/

/-- Shift a decomposition of the remaining bytes past its first region. -/
theorem drop_shift (buf A B : List Nat) (off : Nat) (h : buf.drop off = A ++ B) :
    buf.drop (off + A.length) = B := by
  rw [← List.drop_drop, h, List.drop_left]

/-- Every tag id the encoder emits lies in the `switch`'s handled range. -/
theorem tagId_range (v : Nbt) : 1 ≤ tagId v ∧ tagId v ≤ 12 := by
  cases v <;> simp [tagId]

/-- An encodable node occupies at least one byte. -/
theorem encTag_pos (v : Nbt) (h : WfNbt v) : 1 ≤ (encTag v).length := by
  cases h <;>
    simp_all [encTag, byteBytes, int16beBytes, int32beBytes, int64beBytes,
      encStrBytes]

/-- Signed-byte round trip. -/
theorem int8val_enc (i : Int) (h1 : -128 ≤ i) (h2 : i < 128) :
    int8val (i % 256).toNat = i := by
  unfold int8val
  split <;> omega

/-- The byte-array loop over an encoded element region. -/
theorem readByteLoop_enc (buf : List Nat) (xs : List Int)
    (hx : ∀ i ∈ xs, -128 ≤ i ∧ i < 128) :
    ∀ (off : Nat) (acc : List Int) (rest : List Nat),
      buf.drop off = xs.map (fun i => (i % 256).toNat) ++ rest →
      readByteLoop buf xs.length off acc =
        .ok (acc.reverse ++ xs, off + xs.length) := by
  induction xs with
  | nil => intro off acc rest h; simp [readByteLoop]
  | cons i xs ih =>
    intro off acc rest h
    simp only [List.map_cons, List.cons_append] at h
    obtain ⟨hi1, hi2⟩ := hx i (by simp)
    have hb := readByte_at buf off _ _ h
    rw [int8val_enc i hi1 hi2] at hb
    have hnext : buf.drop (off + 1) = xs.map (fun i => (i % 256).toNat) ++ rest := by
      have := drop_shift buf [(i % 256).toNat] (xs.map (fun i => (i % 256).toNat) ++ rest) off (by simpa using h)
      simpa using this
    simp only [List.length_cons, readByteLoop, hb]
    rw [ih (fun j hj => hx j (by simp [hj])) (off + 1) (i :: acc) rest hnext]
    simp
    omega

/-- The int-array loop over an encoded element region. -/
theorem readIntLoop_enc (buf : List Nat) (xs : List Int)
    (hx : ∀ i ∈ xs, -2147483648 ≤ i ∧ i < 2147483648) :
    ∀ (off : Nat) (acc : List Int) (rest : List Nat),
      buf.drop off = encInts xs ++ rest →
      readIntLoop buf xs.length off acc =
        .ok (acc.reverse ++ xs, off + 4 * xs.length) := by
  induction xs with
  | nil => intro off acc rest h; simp [readIntLoop]
  | cons i xs ih =>
    intro off acc rest h
    simp only [encInts, List.append_assoc] at h
    obtain ⟨hi1, hi2⟩ := hx i (by simp)
    have hb := readInt_enc buf off i (encInts xs ++ rest) h hi1 hi2
    have hnext : buf.drop (off + 4) = encInts xs ++ rest := by
      have := drop_shift buf (int32beBytes i) (encInts xs ++ rest) off h
      simpa [int32beBytes] using this
    simp only [List.length_cons, readIntLoop, hb]
    rw [ih (fun j hj => hx j (by simp [hj])) (off + 4) (i :: acc) rest hnext]
    simp
    omega

/-- The long-array loop over an encoded element region: each element is
stored through `Number`'s binary64 rounding. -/
theorem readLongLoop_enc (buf : List Nat) (xs : List Int)
    (hx : ∀ i ∈ xs, -9223372036854775808 ≤ i ∧ i < 9223372036854775808) :
    ∀ (off : Nat) (acc : List Int) (rest : List Nat),
      buf.drop off = encLongs xs ++ rest →
      readLongLoop buf xs.length off acc =
        .ok (acc.reverse ++ xs.map jsNumber, off + 8 * xs.length) := by
  induction xs with
  | nil => intro off acc rest h; simp [readLongLoop]
  | cons i xs ih =>
    intro off acc rest h
    simp only [encLongs, List.append_assoc] at h
    obtain ⟨hi1, hi2⟩ := hx i (by simp)
    have hb := readLong_enc buf off i (encLongs xs ++ rest) h hi1 hi2
    have hnext : buf.drop (off + 8) = encLongs xs ++ rest := by
      have := drop_shift buf (int64beBytes i) (encLongs xs ++ rest) off h
      simpa [int64beBytes] using this
    simp only [List.length_cons, readLongLoop, hb]
    rw [ih (fun j hj => hx j (by simp [hj])) (off + 8) (jsNumber i :: acc) rest hnext]
    simp
    omega

/- ### Dispatch of the `readTag` switch -/

theorem nbtRun_tag0 (f : Nat) (buf : List Nat) (off : Nat) :
    nbtRun (f + 1) buf (.tag 0) off = .ok (.vnull, off) := by
  simp [nbtRun]

theorem nbtRun_tag1 (f : Nat) (buf : List Nat) (off : Nat) :
    nbtRun (f + 1) buf (.tag 1) off =
      match NbtReader.readByte buf off with
      | .ok (v, o) => .ok (.vbyte v, o)
      | .error e => .error e := by
  norm_num [nbtRun]

theorem nbtRun_tag2 (f : Nat) (buf : List Nat) (off : Nat) :
    nbtRun (f + 1) buf (.tag 2) off =
      match NbtReader.readShort buf off with
      | .ok (v, o) => .ok (.vshort v, o)
      | .error e => .error e := by
  norm_num [nbtRun]

theorem nbtRun_tag3 (f : Nat) (buf : List Nat) (off : Nat) :
    nbtRun (f + 1) buf (.tag 3) off =
      match NbtReader.readInt buf off with
      | .ok (v, o) => .ok (.vint v, o)
      | .error e => .error e := by
  norm_num [nbtRun]

theorem nbtRun_tag4 (f : Nat) (buf : List Nat) (off : Nat) :
    nbtRun (f + 1) buf (.tag 4) off =
      match NbtReader.readLong buf off with
      | .ok (v, o) => .ok (.vlong (jsNumber v), o)
      | .error e => .error e := by
  norm_num [nbtRun]

theorem nbtRun_tag5 (f : Nat) (buf : List Nat) (off : Nat) :
    nbtRun (f + 1) buf (.tag 5) off =
      match NbtReader.readFloat buf off with
      | .ok (v, o) => .ok (.vfloat v, o)
      | .error e => .error e := by
  norm_num [nbtRun]

theorem nbtRun_tag6 (f : Nat) (buf : List Nat) (off : Nat) :
    nbtRun (f + 1) buf (.tag 6) off =
      match NbtReader.readDouble buf off with
      | .ok (v, o) => .ok (.vdouble v, o)
      | .error e => .error e := by
  norm_num [nbtRun]

theorem nbtRun_tag7 (f : Nat) (buf : List Nat) (off : Nat) :
    nbtRun (f + 1) buf (.tag 7) off =
      match NbtReader.readInt buf off with
      | .ok (n, o) =>
        match readByteLoop buf n.toNat o [] with
        | .ok (xs, o2) => .ok (.vbyteArr xs, o2)
        | .error e => .error e
      | .error e => .error e := by
  norm_num [nbtRun]

theorem nbtRun_tag8 (f : Nat) (buf : List Nat) (off : Nat) :
    nbtRun (f + 1) buf (.tag 8) off =
      match NbtReader.readString buf off with
      | .ok (s, o) => .ok (.vstr s, o)
      | .error e => .error e := by
  norm_num [nbtRun]

theorem nbtRun_tag9 (f : Nat) (buf : List Nat) (off : Nat) :
    nbtRun (f + 1) buf (.tag 9) off =
      match NbtReader.readByte buf off with
      | .ok (it, o1) =>
        match NbtReader.readInt buf o1 with
        | .ok (n, o2) => nbtRun f buf (.elems it n.toNat []) o2
        | .error e => .error e
      | .error e => .error e := by
  norm_num [nbtRun]

theorem nbtRun_tag10 (f : Nat) (buf : List Nat) (off : Nat) :
    nbtRun (f + 1) buf (.tag 10) off = nbtRun f buf (.fields []) off := by
  norm_num [nbtRun]

theorem nbtRun_tag11 (f : Nat) (buf : List Nat) (off : Nat) :
    nbtRun (f + 1) buf (.tag 11) off =
      match NbtReader.readInt buf off with
      | .ok (n, o) =>
        match readIntLoop buf n.toNat o [] with
        | .ok (xs, o2) => .ok (.vintArr xs, o2)
        | .error e => .error e
      | .error e => .error e := by
  norm_num [nbtRun]

theorem nbtRun_tag12 (f : Nat) (buf : List Nat) (off : Nat) :
    nbtRun (f + 1) buf (.tag 12) off =
      match NbtReader.readInt buf off with
      | .ok (n, o) =>
        match readLongLoop buf n.toNat o [] with
        | .ok (xs, o2) => .ok (.vlongArr xs, o2)
        | .error e => .error e
      | .error e => .error e := by
  norm_num [nbtRun]

theorem nbtRun_tagUnknown (f : Nat) (buf : List Nat) (off : Nat) (ty : Int)
    (h0 : ty < 0 ∨ 12 < ty) :
    nbtRun (f + 1) buf (.tag ty) off = .error (.unknownTag ty, off) := by
  have hne : ∀ m : Int, 0 ≤ m → m ≤ 12 → ¬ ty = m := by
    rcases h0 with h | h <;> intro m hm1 hm2 heq <;> omega
  simp only [nbtRun]
  rw [if_neg (hne 0 (by norm_num) (by norm_num)),
    if_neg (hne 1 (by norm_num) (by norm_num)),
    if_neg (hne 2 (by norm_num) (by norm_num)),
    if_neg (hne 3 (by norm_num) (by norm_num)),
    if_neg (hne 4 (by norm_num) (by norm_num)),
    if_neg (hne 5 (by norm_num) (by norm_num)),
    if_neg (hne 6 (by norm_num) (by norm_num)),
    if_neg (hne 7 (by norm_num) (by norm_num)),
    if_neg (hne 8 (by norm_num) (by norm_num)),
    if_neg (hne 9 (by norm_num) (by norm_num)),
    if_neg (hne 10 (by norm_num) (by norm_num)),
    if_neg (hne 11 (by norm_num) (by norm_num)),
    if_neg (hne 12 (by norm_num) (by norm_num))]

/-- Length of an encoded int-array element region. -/
theorem encInts_length (xs : List Int) : (encInts xs).length = 4 * xs.length := by
  induction xs with
  | nil => simp [encInts]
  | cons i ys ih =>
    simp [encInts, int32beBytes, ih]
    omega

/-- Length of an encoded long-array element region. -/
theorem encLongs_length (xs : List Int) : (encLongs xs).length = 8 * xs.length := by
  induction xs with
  | nil => simp [encLongs]
  | cons i ys ih =>
    simp [encLongs, int64beBytes, ih]
    omega

/- ### Round trip: decoding a complete well-formed encoding -/

/-- The round-trip property of one node: decoding its complete encoding
with enough fuel succeeds with its decoded value, consuming exactly its
bytes (any trailing bytes untouched). -/
def NbtRT (v : Nbt) : Prop :=
  ∀ (buf rest : List Nat) (off f : Nat),
    buf.drop off = encTag v ++ rest → nbtCost v ≤ f →
    nbtRun f buf (.tag (tagId v)) off = .ok (decodeVal v, off + (encTag v).length)

/-- The list-element loop over an encoded element region. -/
theorem nbtRun_elems_enc (buf : List Nat) (it : Int) :
    ∀ (xs : List Nbt), (∀ x ∈ xs, tagId x = it) → (∀ x ∈ xs, NbtRT x) →
    ∀ (off f : Nat) (acc : List NbtValue) (rest : List Nat),
      buf.drop off = encList xs ++ rest → nbtCostList xs + 1 ≤ f →
      nbtRun f buf (.elems it xs.length acc) off =
        .ok (.vlist (acc.reverse ++ decodeList xs), off + (encList xs).length) := by
  intro xs
  induction xs with
  | nil =>
    intro _ _ off f acc rest h hf
    cases f with
    | zero => simp [nbtCostList] at hf
    | succ f' => simp [nbtRun, encList, decodeList]
  | cons x xs ih =>
    intro hhom hrt off f acc rest h hf
    simp only [encList, List.append_assoc] at h
    simp only [nbtCostList] at hf
    cases f with
    | zero => omega
    | succ f' =>
      have hx := hrt x (by simp)
      have hcall := hx buf (encList xs ++ rest) off f' h (by omega)
      rw [hhom x (by simp)] at hcall
      simp only [List.length_cons, nbtRun, hcall]
      have hnext : buf.drop (off + (encTag x).length) = encList xs ++ rest :=
        drop_shift buf _ _ off h
      rw [ih (fun y hy => hhom y (by simp [hy])) (fun y hy => hrt y (by simp [hy]))
        (off + (encTag x).length) f' (decodeVal x :: acc) rest hnext (by omega)]
      simp [decodeList, encList, List.append_assoc, Nat.add_assoc]

/-- The compound-field loop over an encoded field region closed by the 0
sentinel. -/
theorem nbtRun_fields_enc (buf : List Nat) :
    ∀ (fs : List (List Nat × Nbt)),
      (∀ p ∈ fs, p.1.length < 65536) → (∀ p ∈ fs, NbtRT p.2) →
      ∀ (off f : Nat) (acc : List (List Nat × NbtValue)) (rest : List Nat),
        buf.drop off = encFields fs ++ 0 :: rest → nbtCostFields fs + 1 ≤ f →
        nbtRun f buf (.fields acc) off =
          .ok (.vcompound (decodeFields acc fs), off + (encFields fs).length + 1) := by
  intro fs
  induction fs with
  | nil =>
    intro _ _ off f acc rest h hf
    cases f with
    | zero => simp [nbtCostFields] at hf
    | succ f' =>
      simp only [encFields, List.nil_append] at h
      have hb := readByte_at buf off 0 rest h
      have h0 : int8val 0 = 0 := by decide
      rw [h0] at hb
      simp [nbtRun, hb, decodeFields, encFields]
  | cons p fs ih =>
    obtain ⟨nm, v⟩ := p
    intro hnm hrt off f acc rest h hf
    simp only [encFields, List.append_assoc, List.cons_append] at h
    simp only [nbtCostFields] at hf
    cases f with
    | zero => omega
    | succ f' =>
      have hrange := tagId_range v
      have htag := readByte_at buf off ((tagId v) % 256).toNat _
        (by simpa [byteBytes] using h)
      rw [int8val_enc _ (by omega) (by omega)] at htag
      have hd1 : buf.drop (off + 1) =
          encStrBytes nm ++ (encTag v ++ (encFields fs ++ 0 :: rest)) := by
        have := drop_shift buf (byteBytes (tagId v)) _ off (by simpa [byteBytes] using h)
        simpa [byteBytes] using this
      have hstr := readString_enc buf (off + 1) nm _ hd1 (hnm (nm, v) (by simp))
      have hd2 : buf.drop (off + 1 + 2 + nm.length) =
          encTag v ++ (encFields fs ++ 0 :: rest) := by
        have h2 := drop_shift buf (encStrBytes nm) _ (off + 1) hd1
        rw [show off + 1 + 2 + nm.length = off + 1 + (encStrBytes nm).length from by
          simp [encStrBytes]
          omega]
        exact h2
      have hrtv : NbtRT v := hrt (nm, v) (by simp)
      have hcall := hrtv buf (encFields fs ++ 0 :: rest)
        (off + 1 + 2 + nm.length) f' hd2 (by omega)
      have hd3 : buf.drop (off + 1 + 2 + nm.length + (encTag v).length) =
          encFields fs ++ 0 :: rest :=
        drop_shift buf (encTag v) _ (off + 1 + 2 + nm.length) hd2
      simp only [nbtRun, htag]
      rw [if_neg (by omega)]
      simp only [hstr, hcall]
      rw [ih (fun q hq => hnm q (by simp [hq])) (fun q hq => hrt q (by simp [hq]))
        (off + 1 + 2 + nm.length + (encTag v).length) f'
        (objUpsert acc nm (decodeVal v)) rest hd3 (by omega)]
      simp [decodeFields, encFields, byteBytes, encStrBytes]
      omega

/-- Decoding the complete encoding of a well-formed node succeeds with
its decoded value and consumes exactly its bytes — in particular the
fuel accounting of the model never starves a well-formed decode. -/
theorem nbtRun_encTag (v : Nbt) (h : WfNbt v) : NbtRT v := by
  induction h with
  | wbyte h1 h2 =>
    intro buf rest off f hdrop hf
    cases f with
    | zero => simp [nbtCost] at hf
    | succ f' =>
      have hb := readByte_enc buf off _ rest (by simpa [encTag] using hdrop) h1 h2
      rw [tagId, nbtRun_tag1, hb]
      simp [decodeVal, encTag, byteBytes]
  | wshort h1 h2 =>
    intro buf rest off f hdrop hf
    cases f with
    | zero => simp [nbtCost] at hf
    | succ f' =>
      have hb := readShort_enc buf off _ rest (by simpa [encTag] using hdrop) h1 h2
      rw [tagId, nbtRun_tag2, hb]
      simp [decodeVal, encTag, int16beBytes]
  | wint h1 h2 =>
    intro buf rest off f hdrop hf
    cases f with
    | zero => simp [nbtCost] at hf
    | succ f' =>
      have hb := readInt_enc buf off _ rest (by simpa [encTag] using hdrop) h1 h2
      rw [tagId, nbtRun_tag3, hb]
      simp [decodeVal, encTag, int32beBytes]
  | wlong h1 h2 =>
    intro buf rest off f hdrop hf
    cases f with
    | zero => simp [nbtCost] at hf
    | succ f' =>
      have hb := readLong_enc buf off _ rest (by simpa [encTag] using hdrop) h1 h2
      rw [tagId, nbtRun_tag4, hb]
      simp [decodeVal, encTag, int64beBytes]
  | wfloat hb4 hbl =>
    intro buf rest off f hdrop hf
    cases f with
    | zero => simp [nbtCost] at hf
    | succ f' =>
      have hb := readFloat_at buf off _ rest (by simpa [encTag] using hdrop) hb4
      rw [tagId, nbtRun_tag5, hb]
      simp [decodeVal, encTag, hb4]
  | wdouble hb8 hbl =>
    intro buf rest off f hdrop hf
    cases f with
    | zero => simp [nbtCost] at hf
    | succ f' =>
      have hb := readDouble_at buf off _ rest (by simpa [encTag] using hdrop) hb8
      rw [tagId, nbtRun_tag6, hb]
      simp [decodeVal, encTag, hb8]
  | wstr hs hbl =>
    intro buf rest off f hdrop hf
    cases f with
    | zero => simp [nbtCost] at hf
    | succ f' =>
      have hb := readString_enc buf off _ rest (by simpa [encTag] using hdrop) hs
      rw [tagId, nbtRun_tag8, hb]
      simp [decodeVal, encTag, encStrBytes]
      omega
  | wlist hlen hhom hwf ih =>
    next xs =>
    intro buf rest off f hdrop hf
    simp only [nbtCost] at hf
    cases f with
    | zero => omega
    | succ f' =>
      simp only [encTag, List.append_assoc] at hdrop
      have hitrange : 0 ≤ listItemType xs ∧ listItemType xs ≤ 12 := by
        cases xs with
        | nil => simp [listItemType]
        | cons x _ =>
          have := tagId_range x
          simp [listItemType]
          omega
      have htag := readByte_at buf off ((listItemType xs) % 256).toNat _
        (by simpa [byteBytes] using hdrop)
      rw [int8val_enc _ (by omega) (by omega)] at htag
      have hd1 : buf.drop (off + 1) = int32beBytes xs.length ++ (encList xs ++ rest) := by
        have := drop_shift buf (byteBytes (listItemType xs)) _ off
          (by simpa [byteBytes] using hdrop)
        simpa [byteBytes] using this
      have hcnt := readInt_enc buf (off + 1) xs.length _ hd1 (by omega) hlen
      have hd2 : buf.drop (off + 1 + 4) = encList xs ++ rest := by
        have := drop_shift buf (int32beBytes xs.length) _ (off + 1) hd1
        simpa [int32beBytes] using this
      rw [tagId, nbtRun_tag9]
      simp only [htag, hcnt, Int.toNat_natCast]
      rw [nbtRun_elems_enc buf (listItemType xs) xs hhom ih (off + 1 + 4) f' [] rest hd2
        (by omega)]
      simp [decodeVal, encTag, byteBytes, int32beBytes, decodeList]
      omega
  | wcompound hnm hwf ih =>
    next fs =>
    intro buf rest off f hdrop hf
    simp only [nbtCost] at hf
    cases f with
    | zero => omega
    | succ f' =>
      simp only [encTag, List.append_assoc, List.cons_append] at hdrop
      rw [tagId, nbtRun_tag10]
      rw [nbtRun_fields_enc buf fs (fun p hp => (hnm p hp).1) ih off f' [] rest
        (by simpa using hdrop) (by omega)]
      simp [decodeVal, encTag]
      omega
  | wbyteArr hlen hx =>
    next xs =>
    intro buf rest off f hdrop hf
    cases f with
    | zero => simp [nbtCost] at hf
    | succ f' =>
      simp only [encTag, List.append_assoc] at hdrop
      have hcnt := readInt_enc buf off xs.length _ (by simpa using hdrop) (by omega) hlen
      have hd1 : buf.drop (off + 4) = xs.map (fun i => (i % 256).toNat) ++ rest := by
        have := drop_shift buf (int32beBytes (xs.length : Int)) _ off (by simpa using hdrop)
        simpa [int32beBytes] using this
      rw [tagId, nbtRun_tag7]
      simp only [hcnt, Int.toNat_natCast]
      rw [readByteLoop_enc buf xs hx (off + 4) [] rest hd1]
      simp [decodeVal, encTag, int32beBytes]
      omega
  | wintArr hlen hx =>
    next xs =>
    intro buf rest off f hdrop hf
    cases f with
    | zero => simp [nbtCost] at hf
    | succ f' =>
      simp only [encTag, List.append_assoc] at hdrop
      have hcnt := readInt_enc buf off xs.length _ (by simpa using hdrop) (by omega) hlen
      have hd1 : buf.drop (off + 4) = encInts xs ++ rest := by
        have := drop_shift buf (int32beBytes (xs.length : Int)) _ off (by simpa using hdrop)
        simpa [int32beBytes] using this
      rw [tagId, nbtRun_tag11]
      simp only [hcnt, Int.toNat_natCast]
      rw [readIntLoop_enc buf xs hx (off + 4) [] rest hd1]
      simp [decodeVal, encTag, int32beBytes, encInts_length]
      omega
  | wlongArr hlen hx =>
    next xs =>
    intro buf rest off f hdrop hf
    cases f with
    | zero => simp [nbtCost] at hf
    | succ f' =>
      simp only [encTag, List.append_assoc] at hdrop
      have hcnt := readInt_enc buf off xs.length _ (by simpa using hdrop) (by omega) hlen
      have hd1 : buf.drop (off + 4) = encLongs xs ++ rest := by
        have := drop_shift buf (int32beBytes (xs.length : Int)) _ off (by simpa using hdrop)
        simpa [int32beBytes] using this
      rw [tagId, nbtRun_tag12]
      simp only [hcnt, Int.toNat_natCast]
      rw [readLongLoop_enc buf xs hx (off + 4) [] rest hd1]
      simp [decodeVal, encTag, int32beBytes, encLongs_length]
      omega

/- ### Failure branches of the primitive reads -/

theorem readByte_err (buf : List Nat) (off : Nat) (h : buf.length ≤ off) :
    NbtReader.readByte buf off = .error (.outOfRange, off + 1) := by
  unfold NbtReader.readByte
  rw [if_neg (by omega)]

theorem readShort_err (buf : List Nat) (off : Nat) (h : buf.length < off + 2) :
    NbtReader.readShort buf off = .error (.outOfRange, off) := by
  unfold NbtReader.readShort
  rw [if_neg (by omega)]

theorem readInt_err (buf : List Nat) (off : Nat) (h : buf.length < off + 4) :
    NbtReader.readInt buf off = .error (.outOfRange, off) := by
  unfold NbtReader.readInt
  rw [if_neg (by omega)]

theorem readLong_err (buf : List Nat) (off : Nat) (h : buf.length < off + 8) :
    NbtReader.readLong buf off = .error (.outOfRange, off) := by
  unfold NbtReader.readLong
  rw [if_neg (by omega)]

theorem readFloat_err (buf : List Nat) (off : Nat) (h : buf.length < off + 4) :
    NbtReader.readFloat buf off = .error (.outOfRange, off) := by
  unfold NbtReader.readFloat
  rw [if_neg (by omega)]

theorem readDouble_err (buf : List Nat) (off : Nat) (h : buf.length < off + 8) :
    NbtReader.readDouble buf off = .error (.outOfRange, off) := by
  unfold NbtReader.readDouble
  rw [if_neg (by omega)]

theorem readString_err (buf : List Nat) (off : Nat) (h : buf.length < off + 2) :
    NbtReader.readString buf off = .error (.outOfRange, off) := by
  unfold NbtReader.readString
  rw [if_neg (by omega)]

/-- The readable-prefix branch of `readString`, with the clamped value. -/
theorem readString_ok (buf : List Nat) (off : Nat) (h : off + 2 ≤ buf.length) :
    NbtReader.readString buf off =
      .ok ((buf.take (off + 2 + u16be (buf.getD off 0) (buf.getD (off + 1) 0))).drop (off + 2),
        off + 2 + u16be (buf.getD off 0) (buf.getD (off + 1) 0)) := by
  unfold NbtReader.readString
  rw [if_pos h]

/-- The element loops fail inside the buffer when the element count
overruns the remaining bytes. -/
theorem readByteLoop_err (buf : List Nat) :
    ∀ (n off : Nat) (acc : List Int), off ≤ buf.length → buf.length < off + n →
    ∃ o, readByteLoop buf n off acc = .error (.outOfRange, o) := by
  intro n
  induction n with
  | zero => intro off acc h1 h2; omega
  | succ n ih =>
    intro off acc h1 h2
    by_cases ho : off < buf.length
    · have hb : ∃ b rest, buf.drop off = b :: rest := by
        cases hd : buf.drop off with
        | nil =>
          have := length_of_drop buf _ off hd
          simp at this
          omega
        | cons b rest => exact ⟨b, rest, rfl⟩
      obtain ⟨b, rest, hd⟩ := hb
      have := readByte_at buf off b rest hd
      simp only [readByteLoop, this]
      exact ih (off + 1) _ (by omega) (by omega)
    · refine ⟨off + 1, ?_⟩
      simp only [readByteLoop, readByte_err buf off (by omega)]

/-- The int-array loop fails inside the buffer when the declared count
overruns the remaining bytes. -/
theorem readIntLoop_err (buf : List Nat) :
    ∀ (n off : Nat) (acc : List Int), off ≤ buf.length →
      buf.length < off + 4 * n →
    ∃ o, readIntLoop buf n off acc = .error (.outOfRange, o) := by
  intro n
  induction n with
  | zero => intro off acc h1 h2; omega
  | succ n ih =>
    intro off acc h1 h2
    by_cases ho : off + 4 ≤ buf.length
    · have hv : NbtReader.readInt buf off =
          .ok (sign32 (u32be (buf.getD off 0) (buf.getD (off + 1) 0)
            (buf.getD (off + 2) 0) (buf.getD (off + 3) 0)), off + 4) := by
        unfold NbtReader.readInt
        rw [if_pos ho]
      simp only [readIntLoop, hv]
      exact ih (off + 4) _ (by omega) (by omega)
    · refine ⟨off, ?_⟩
      simp only [readIntLoop, readInt_err buf off (by omega)]

/-- The long-array loop fails inside the buffer when the declared count
overruns the remaining bytes. -/
theorem readLongLoop_err (buf : List Nat) :
    ∀ (n off : Nat) (acc : List Int), off ≤ buf.length →
      buf.length < off + 8 * n →
    ∃ o, readLongLoop buf n off acc = .error (.outOfRange, o) := by
  intro n
  induction n with
  | zero => intro off acc h1 h2; omega
  | succ n ih =>
    intro off acc h1 h2
    by_cases ho : off + 8 ≤ buf.length
    · have hv : NbtReader.readLong buf off =
          .ok (sign32 (u32be (buf.getD off 0) (buf.getD (off + 1) 0)
              (buf.getD (off + 2) 0) (buf.getD (off + 3) 0)) * 4294967296 +
            (u32be (buf.getD (off + 4) 0) (buf.getD (off + 5) 0)
              (buf.getD (off + 6) 0) (buf.getD (off + 7) 0) : Int), off + 8) := by
        unfold NbtReader.readLong
        rw [if_pos ho]
      simp only [readLongLoop, hv]
      exact ih (off + 8) _ (by omega) (by omega)
    · refine ⟨off, ?_⟩
      simp only [readLongLoop, readLong_err buf off (by omega)]

/-- Any handled tag id fails immediately past the buffer end. -/
theorem nbtRun_tag_pastEnd (buf : List Nat) (off : Nat) (ty : Int) (f : Nat)
    (h1 : 1 ≤ ty) (h2 : ty ≤ 12) (ho : buf.length < off) (hf : 2 ≤ f) :
    ∃ o, nbtRun f buf (.tag ty) off = .error (.outOfRange, o) := by
  obtain ⟨f1, rfl⟩ : ∃ f1, f = f1 + 2 := ⟨f - 2, by omega⟩
  interval_cases ty
  · exact ⟨off + 1, by rw [show f1 + 2 = (f1 + 1) + 1 from rfl, nbtRun_tag1,
      readByte_err buf off (by omega)]⟩
  · exact ⟨off, by rw [show f1 + 2 = (f1 + 1) + 1 from rfl, nbtRun_tag2,
      readShort_err buf off (by omega)]⟩
  · exact ⟨off, by rw [show f1 + 2 = (f1 + 1) + 1 from rfl, nbtRun_tag3,
      readInt_err buf off (by omega)]⟩
  · exact ⟨off, by rw [show f1 + 2 = (f1 + 1) + 1 from rfl, nbtRun_tag4,
      readLong_err buf off (by omega)]⟩
  · exact ⟨off, by rw [show f1 + 2 = (f1 + 1) + 1 from rfl, nbtRun_tag5,
      readFloat_err buf off (by omega)]⟩
  · exact ⟨off, by rw [show f1 + 2 = (f1 + 1) + 1 from rfl, nbtRun_tag6,
      readDouble_err buf off (by omega)]⟩
  · exact ⟨off, by rw [show f1 + 2 = (f1 + 1) + 1 from rfl, nbtRun_tag7,
      readInt_err buf off (by omega)]⟩
  · exact ⟨off, by rw [show f1 + 2 = (f1 + 1) + 1 from rfl, nbtRun_tag8,
      readString_err buf off (by omega)]⟩
  · exact ⟨off + 1, by rw [show f1 + 2 = (f1 + 1) + 1 from rfl, nbtRun_tag9,
      readByte_err buf off (by omega)]⟩
  · refine ⟨off + 1, ?_⟩
    rw [show f1 + 2 = (f1 + 1) + 1 from rfl, nbtRun_tag10]
    rw [show f1 + 1 = f1 + 1 from rfl]
    simp only [nbtRun, readByte_err buf off (by omega)]
  · exact ⟨off, by rw [show f1 + 2 = (f1 + 1) + 1 from rfl, nbtRun_tag11,
      readInt_err buf off (by omega)]⟩
  · exact ⟨off, by rw [show f1 + 2 = (f1 + 1) + 1 from rfl, nbtRun_tag12,
      readInt_err buf off (by omega)]⟩

/- ### Fuel bounds from encoding sizes -/

/-- Elementwise cost bound summed over a list region. -/
theorem nbtCostList_le (xs : List Nbt)
    (h : ∀ x ∈ xs, nbtCost x + 2 ≤ 4 * (encTag x).length) :
    nbtCostList xs + xs.length ≤ 4 * (encList xs).length := by
  induction xs with
  | nil => simp [nbtCostList, encList]
  | cons x ys ih =>
    have hx := h x (by simp)
    have := ih (fun y hy => h y (by simp [hy]))
    simp only [nbtCostList, encList, List.length_append, List.length_cons]
    omega

/-- Fieldwise cost bound summed over a field region. -/
theorem nbtCostFields_le (fs : List (List Nat × Nbt))
    (h : ∀ p ∈ fs, nbtCost p.2 + 2 ≤ 4 * (encTag p.2).length) :
    nbtCostFields fs ≤ 4 * (encFields fs).length := by
  induction fs with
  | nil => simp [nbtCostFields, encFields]
  | cons p gs ih =>
    obtain ⟨nm, v⟩ := p
    have hx := h (nm, v) (by simp)
    have := ih (fun q hq => h q (by simp [hq]))
    simp only [nbtCostFields, encFields, List.length_append, List.length_cons,
      byteBytes, encStrBytes, List.length_nil]
    simp at hx ⊢
    omega

/-- The recursion budget of a well-formed node is dominated by four units
per encoded byte (with slack two). -/
theorem nbtCost_le (v : Nbt) (h : WfNbt v) :
    nbtCost v + 2 ≤ 4 * (encTag v).length := by
  induction h with
  | wbyte h1 h2 => simp [nbtCost, encTag, byteBytes] <;> omega
  | wshort h1 h2 => simp [nbtCost, encTag, int16beBytes] <;> omega
  | wint h1 h2 => simp [nbtCost, encTag, int32beBytes] <;> omega
  | wlong h1 h2 => simp [nbtCost, encTag, int64beBytes] <;> omega
  | wfloat h4 hb => simp [nbtCost, encTag, h4] <;> omega
  | wdouble h8 hb => simp [nbtCost, encTag, h8] <;> omega
  | wstr hs hb => simp [nbtCost, encTag, encStrBytes] <;> omega
  | wlist hlen hhom hwf ih =>
    next xs =>
    have := nbtCostList_le xs ih
    simp only [nbtCost, encTag, List.length_append, byteBytes, int32beBytes,
      List.length_cons, List.length_nil]
    simp at this ⊢
    omega
  | wcompound hnm hwf ih =>
    next fs =>
    have := nbtCostFields_le fs ih
    simp only [nbtCost, encTag, List.length_append, List.length_cons]
    simp at this ⊢
    omega
  | wbyteArr hlen hx => simp [nbtCost, encTag, int32beBytes] <;> omega
  | wintArr hlen hx => simp [nbtCost, encTag, int32beBytes] <;> omega
  | wlongArr hlen hx => simp [nbtCost, encTag, int32beBytes] <;> omega

/- ### Truncated decodes -/

/-- Reading a cell strictly inside the surviving prefix of a region sees
the region's byte. -/
theorem getD_of_drop_take (buf E : List Nat) (off k i : Nat)
    (hd : buf.drop off = E.take k) (hik : i < k) :
    buf.getD (off + i) 0 = E.getD i 0 := by
  rw [getD_of_drop buf _ off i hd, List.getD_eq_getElem?_getD,
    List.getD_eq_getElem?_getD, List.getElem?_take_of_lt hik]

/-- Splitting the surviving prefix of a concatenation whose first region
survived whole. -/
theorem take_decomp (A B : List Nat) (k : Nat) (h : A.length ≤ k) :
    (A ++ B).take k = A ++ B.take (k - A.length) := by
  rw [List.take_append_eq_append_take, List.take_all_of_le h]

/-- The truncated-run property of one node: on a buffer that ends
strictly inside the node's encoding, decoding either fails with the
out-of-range error, or — possible only through a clamped trailing string
read, hence never for a compound — succeeds with the cursor strictly
past the buffer end. -/
def NbtTL (v : Nbt) : Prop :=
  ∀ (buf : List Nat) (off f k : Nat),
    buf.drop off = (encTag v).take k → k < (encTag v).length →
    4 * (buf.length - off) + 2 ≤ f →
    (∃ o, nbtRun f buf (.tag (tagId v)) off = .error (.outOfRange, o)) ∨
    (tagId v ≠ 10 ∧ ∃ val o, nbtRun f buf (.tag (tagId v)) off = .ok (val, o) ∧
      buf.length < o)

/-- The list-element loop on a region that ends strictly inside the
elements. -/
theorem nbtRun_elems_trunc (buf : List Nat) (it : Int) :
    ∀ (xs : List Nbt), (∀ x ∈ xs, tagId x = it) → (∀ x ∈ xs, WfNbt x) →
      (∀ x ∈ xs, NbtRT x) → (∀ x ∈ xs, NbtTL x) →
    ∀ (off f k : Nat) (acc : List NbtValue),
      buf.drop off = (encList xs).take k → k < (encList xs).length →
      4 * (buf.length - off) + 5 ≤ f →
      (∃ o, nbtRun f buf (.elems it xs.length acc) off = .error (.outOfRange, o)) ∨
      (∃ val o, nbtRun f buf (.elems it xs.length acc) off = .ok (val, o) ∧
        buf.length < o) := by
  intro xs
  induction xs with
  | nil => intro _ _ _ _ off f k acc hd hk hf; simp [encList] at hk
  | cons x xs ih =>
    intro hhom hwf hrt htl off f k acc hd hk hf
    have hxpos := encTag_pos x (hwf x (by simp))
    simp only [encList, List.length_append] at hk
    have hR : buf.length - off = k := by
      have := length_of_drop buf _ off hd
      rw [List.length_take] at this
      simp only [encList, List.length_append] at this
      omega
    obtain ⟨f1, rfl⟩ : ∃ f1, f = f1 + 1 := ⟨f - 1, by omega⟩
    by_cases hcase : k < (encTag x).length
    · -- the first element itself is truncated
      have hdx : buf.drop off = (encTag x).take k := by
        rw [hd, show encList (x :: xs) = encTag x ++ encList xs from rfl,
          List.take_append_eq_append_take,
          Nat.sub_eq_zero_of_le (Nat.le_of_lt hcase)]
        simp
      have hres := htl x (by simp) buf off f1 k hdx hcase (by omega)
      rw [hhom x (by simp)] at hres
      rcases hres with ⟨o, ho⟩ | ⟨-, val, o, hok, hgt⟩
      · exact Or.inl ⟨o, by simp only [List.length_cons, nbtRun, ho]⟩
      · have hstep : nbtRun (f1 + 1) buf (.elems it (x :: xs).length acc) off =
            nbtRun f1 buf (.elems it xs.length (val :: acc)) o := by
          simp only [List.length_cons, nbtRun, hok]
        cases xs with
        | nil =>
          refine Or.inr ⟨.vlist (val :: acc).reverse, o, ?_, hgt⟩
          obtain ⟨f2, rfl⟩ : ∃ f2, f1 = f2 + 1 := ⟨f1 - 1, by omega⟩
          rw [hstep]
          rfl
        | cons y ys =>
          obtain ⟨f2, rfl⟩ : ∃ f2, f1 = f2 + 1 := ⟨f1 - 1, by omega⟩
          have hyr := tagId_range y
          obtain ⟨o2, ho2⟩ := nbtRun_tag_pastEnd buf o it f2
            (by rw [← hhom y (by simp)]; omega)
            (by rw [← hhom y (by simp)]; omega) hgt (by omega)
          refine Or.inl ⟨o2, ?_⟩
          rw [hstep]
          simp only [List.length_cons, nbtRun, ho2]
    · -- the first element survived whole; recurse past it
      have hdx : buf.drop off = encTag x ++ (encList xs).take (k - (encTag x).length) := by
        rw [hd, show encList (x :: xs) = encTag x ++ encList xs from rfl,
          take_decomp _ _ k (by omega)]
      have hrx := hrt x (by simp) buf _ off f1 hdx (by
        have := nbtCost_le x (hwf x (by simp))
        omega)
      rw [hhom x (by simp)] at hrx
      have hnext : buf.drop (off + (encTag x).length) =
          (encList xs).take (k - (encTag x).length) :=
        drop_shift buf _ _ off hdx
      have hres := ih (fun y hy => hhom y (by simp [hy]))
        (fun y hy => hwf y (by simp [hy])) (fun y hy => hrt y (by simp [hy]))
        (fun y hy => htl y (by simp [hy]))
        (off + (encTag x).length) f1 (k - (encTag x).length) (decodeVal x :: acc)
        hnext (by omega) (by omega)
      rcases hres with ⟨o, ho⟩ | ⟨val, o, hok, hgt⟩
      · exact Or.inl ⟨o, by simp only [List.length_cons, nbtRun, hrx, ho]⟩
      · exact Or.inr ⟨val, o, by simp only [List.length_cons, nbtRun, hrx, hok], hgt⟩

/-- The compound-field loop on a region that ends strictly inside the
fields (or strictly before the closing sentinel): it always fails with
the out-of-range error. -/
theorem nbtRun_fields_trunc (buf : List Nat) :
    ∀ (fs : List (List Nat × Nbt)),
      (∀ p ∈ fs, (p.1 : List Nat).length < 65536) → (∀ p ∈ fs, WfNbt p.2) →
      (∀ p ∈ fs, NbtRT p.2) → (∀ p ∈ fs, NbtTL p.2) →
    ∀ (off f k : Nat) (acc : List (List Nat × NbtValue)),
      buf.drop off = (encFields fs ++ [0]).take k →
      k < (encFields fs ++ [0]).length →
      4 * (buf.length - off) + 1 ≤ f →
      ∃ o, nbtRun f buf (.fields acc) off = .error (.outOfRange, o) := by
  intro fs
  induction fs with
  | nil =>
    intro _ _ _ _ off f k acc hd hk hf
    simp only [encFields, List.nil_append, List.length_cons, List.length_nil] at hk
    have hk0 : k = 0 := by omega
    subst hk0
    simp only [List.take_zero] at hd
    have hlen := length_of_drop buf _ off hd
    simp only [List.length_nil] at hlen
    obtain ⟨f1, rfl⟩ : ∃ f1, f = f1 + 1 := ⟨f - 1, by omega⟩
    exact ⟨off + 1, by simp only [nbtRun, readByte_err buf off (by omega)]⟩
  | cons p fs ih =>
    obtain ⟨nm, v⟩ := p
    intro hnm hwf hrt htl off f k acc hd hk hf
    have hrange := tagId_range v
    have hvwf : WfNbt v := hwf (nm, v) (by simp)
    have hnml : nm.length < 65536 := hnm (nm, v) (by simp)
    simp only [encFields, byteBytes, encStrBytes, List.cons_append,
      List.append_assoc, List.nil_append] at hd
    simp only [encFields, byteBytes, encStrBytes, List.cons_append,
      List.append_assoc, List.nil_append, List.length_append, List.length_cons,
      List.length_nil] at hk
    have hR : buf.length - off = k := by
      have := length_of_drop buf _ off hd
      rw [List.length_take] at this
      simp only [List.length_cons, List.length_append, List.length_nil] at this
      omega
    obtain ⟨f1, rfl⟩ : ∃ f1, f = f1 + 1 := ⟨f - 1, by omega⟩
    rcases Nat.lt_or_ge k 1 with hk1 | hk1
    · exact ⟨off + 1, by simp only [nbtRun, readByte_err buf off (by omega)]⟩
    · obtain ⟨k1, rfl⟩ : ∃ k1, k = k1 + 1 := ⟨k - 1, by omega⟩
      simp only [List.take_succ_cons] at hd
      have htag := readByte_at buf off ((tagId v) % 256).toNat _ hd
      rw [int8val_enc _ (by omega) (by omega)] at htag
      rcases Nat.lt_or_ge k1 2 with hk2 | hk2
      · -- the name's length prefix is itself truncated
        refine ⟨off + 1, ?_⟩
        simp only [nbtRun, htag]
        rw [if_neg (by omega), readString_err buf (off + 1) (by omega)]
      · obtain ⟨k3, rfl⟩ : ∃ k3, k1 = k3 + 2 := ⟨k1 - 2, by omega⟩
        simp only [List.take_succ_cons] at hd
        have hg1 : buf.getD (off + 1) 0 = nm.length / 256 % 256 := by
          have := getD_of_drop buf _ off 1 hd
          simpa using this
        have hg2 : buf.getD (off + 1 + 1) 0 = nm.length % 256 := by
          rw [show off + 1 + 1 = off + 2 from by omega]
          have := getD_of_drop buf _ off 2 hd
          simpa using this
        have hL : u16be (nm.length / 256 % 256) (nm.length % 256) = nm.length := by
          unfold u16be
          omega
        have hstr := readString_ok buf (off + 1) (by omega)
        rw [hg1, hg2, hL] at hstr
        rcases Nat.lt_or_ge k3 nm.length with hk4 | hk4
        · -- name bytes truncated: the clamped read leaves the cursor past the end
          obtain ⟨o3, herr⟩ := nbtRun_tag_pastEnd buf (off + 1 + 2 + nm.length)
            (tagId v) f1 (by omega) (by omega) (by omega) (by omega)
          refine ⟨o3, ?_⟩
          simp only [nbtRun, htag]
          rw [if_neg (by omega)]
          simp only [hstr, herr]
        · -- name complete
          have hdn : buf.drop (off + 1 + 2) =
              (nm ++ (encTag v ++ (encFields fs ++ [0]))).take k3 := by
            rw [show off + 1 + 2 = off + 3 from by omega]
            have h3 := drop_shift buf
              [((tagId v) % 256).toNat, nm.length / 256 % 256, nm.length % 256] _
              off (by simpa using hd)
            simpa using h3
          have hdn2 : buf.drop (off + 1 + 2) =
              nm ++ (encTag v ++ (encFields fs ++ [0])).take (k3 - nm.length) := by
            rw [hdn, take_decomp _ _ k3 hk4]
          have hdv : buf.drop (off + 1 + 2 + nm.length) =
              (encTag v ++ (encFields fs ++ [0])).take (k3 - nm.length) :=
            drop_shift buf nm _ (off + 1 + 2) hdn2
          rcases Nat.lt_or_ge (k3 - nm.length) (encTag v).length with hk5 | hk5
          · -- the field's value is truncated
            have hdt : buf.drop (off + 1 + 2 + nm.length) =
                (encTag v).take (k3 - nm.length) := by
              rw [hdv, List.take_append_eq_append_take,
                Nat.sub_eq_zero_of_le (Nat.le_of_lt hk5)]
              simp
            have htlv : NbtTL v := htl (nm, v) (by simp)
            have hres := htlv buf (off + 1 + 2 + nm.length) f1 (k3 - nm.length)
              hdt hk5 (by omega)
            rcases hres with ⟨o3, herr⟩ | ⟨-, val, o3, hok3, hgt3⟩
            · refine ⟨o3, ?_⟩
              simp only [nbtRun, htag]
              rw [if_neg (by omega)]
              simp only [hstr, herr]
            · -- clamp overrun inside the value: the next field's type read fails
              have hchain : nbtRun (f1 + 1) buf (.fields acc) off =
                  nbtRun f1 buf
                    (.fields (objUpsert acc
                      ((buf.take (off + 1 + 2 + nm.length)).drop (off + 1 + 2)) val)) o3 := by
                simp only [nbtRun, htag]
                rw [if_neg (by omega)]
                simp only [hstr, hok3]
              obtain ⟨f2, rfl⟩ : ∃ f2, f1 = f2 + 1 := ⟨f1 - 1, by omega⟩
              refine ⟨o3 + 1, ?_⟩
              rw [hchain]
              simp only [nbtRun, readByte_err buf o3 (by omega)]
          · -- the value survives whole: recurse into the remaining fields
            have hdv2 : buf.drop (off + 1 + 2 + nm.length) =
                encTag v ++ (encFields fs ++ [0]).take (k3 - nm.length - (encTag v).length) := by
              rw [hdv, take_decomp _ _ _ hk5]
            have hrtv : NbtRT v := hrt (nm, v) (by simp)
            have hcall := hrtv buf _ (off + 1 + 2 + nm.length) f1 hdv2 (by
              have := nbtCost_le v hvwf
              omega)
            have hdn3 : buf.drop (off + 1 + 2 + nm.length + (encTag v).length) =
                (encFields fs ++ [0]).take (k3 - nm.length - (encTag v).length) :=
              drop_shift buf _ _ _ hdv2
            obtain ⟨o4, herr4⟩ := ih (fun q hq => hnm q (by simp [hq]))
              (fun q hq => hwf q (by simp [hq])) (fun q hq => hrt q (by simp [hq]))
              (fun q hq => htl q (by simp [hq]))
              (off + 1 + 2 + nm.length + (encTag v).length) f1
              (k3 - nm.length - (encTag v).length)
              (objUpsert acc ((buf.take (off + 1 + 2 + nm.length)).drop (off + 1 + 2))
                (decodeVal v))
              hdn3
              (by
                simp only [List.length_append, List.length_cons, List.length_nil]
                omega)
              (by omega)
            refine ⟨o4, ?_⟩
            simp only [nbtRun, htag]
            rw [if_neg (by omega)]
            simp only [hstr, hcall, herr4]

/-- Decoding a well-formed node from a buffer that ends strictly inside
its encoding either fails with the out-of-range error or — through the
string clamp only, never for a compound — returns with the cursor past
the buffer end. -/
theorem nbtRun_truncTag (v : Nbt) (h : WfNbt v) : NbtTL v := by
  induction h with
  | wbyte h1 h2 =>
    intro buf off f k hd hk hf
    have hR : buf.length - off = k := by
      have h0 := length_of_drop buf _ off hd
      rw [List.length_take] at h0
      omega
    simp only [encTag, byteBytes, List.length_cons, List.length_nil] at hk
    obtain ⟨f1, rfl⟩ : ∃ f1, f = f1 + 1 := ⟨f - 1, by omega⟩
    exact Or.inl ⟨off + 1, by rw [tagId, nbtRun_tag1, readByte_err buf off (by omega)]⟩
  | wshort h1 h2 =>
    intro buf off f k hd hk hf
    have hR : buf.length - off = k := by
      have h0 := length_of_drop buf _ off hd
      rw [List.length_take] at h0
      omega
    simp only [encTag, int16beBytes, List.length_cons, List.length_nil] at hk
    obtain ⟨f1, rfl⟩ : ∃ f1, f = f1 + 1 := ⟨f - 1, by omega⟩
    exact Or.inl ⟨off, by rw [tagId, nbtRun_tag2, readShort_err buf off (by omega)]⟩
  | wint h1 h2 =>
    intro buf off f k hd hk hf
    have hR : buf.length - off = k := by
      have h0 := length_of_drop buf _ off hd
      rw [List.length_take] at h0
      omega
    simp only [encTag, int32beBytes, List.length_cons, List.length_nil] at hk
    obtain ⟨f1, rfl⟩ : ∃ f1, f = f1 + 1 := ⟨f - 1, by omega⟩
    exact Or.inl ⟨off, by rw [tagId, nbtRun_tag3, readInt_err buf off (by omega)]⟩
  | wlong h1 h2 =>
    intro buf off f k hd hk hf
    have hR : buf.length - off = k := by
      have h0 := length_of_drop buf _ off hd
      rw [List.length_take] at h0
      omega
    simp only [encTag, int64beBytes, List.length_cons, List.length_nil] at hk
    obtain ⟨f1, rfl⟩ : ∃ f1, f = f1 + 1 := ⟨f - 1, by omega⟩
    exact Or.inl ⟨off, by rw [tagId, nbtRun_tag4, readLong_err buf off (by omega)]⟩
  | wfloat hb4 hbl =>
    intro buf off f k hd hk hf
    have hR : buf.length - off = k := by
      have h0 := length_of_drop buf _ off hd
      rw [List.length_take] at h0
      omega
    simp only [encTag] at hk
    obtain ⟨f1, rfl⟩ : ∃ f1, f = f1 + 1 := ⟨f - 1, by omega⟩
    exact Or.inl ⟨off, by rw [tagId, nbtRun_tag5, readFloat_err buf off (by omega)]⟩
  | wdouble hb8 hbl =>
    intro buf off f k hd hk hf
    have hR : buf.length - off = k := by
      have h0 := length_of_drop buf _ off hd
      rw [List.length_take] at h0
      omega
    simp only [encTag] at hk
    obtain ⟨f1, rfl⟩ : ∃ f1, f = f1 + 1 := ⟨f - 1, by omega⟩
    exact Or.inl ⟨off, by rw [tagId, nbtRun_tag6, readDouble_err buf off (by omega)]⟩
  | wstr hs hbl =>
    next s =>
    intro buf off f k hd hk hf
    have hR : buf.length - off = k := by
      have h0 := length_of_drop buf _ off hd
      rw [List.length_take] at h0
      omega
    simp only [encTag, encStrBytes, List.length_append, List.length_cons,
      List.length_nil] at hk
    obtain ⟨f1, rfl⟩ : ∃ f1, f = f1 + 1 := ⟨f - 1, by omega⟩
    rcases Nat.lt_or_ge k 2 with hk2 | hk2
    · exact Or.inl ⟨off, by rw [tagId, nbtRun_tag8, readString_err buf off (by omega)]⟩
    · right
      obtain ⟨k2, rfl⟩ : ∃ k2, k = k2 + 2 := ⟨k - 2, by omega⟩
      simp only [encTag, encStrBytes, List.cons_append, List.take_succ_cons] at hd
      have hg1 : buf.getD off 0 = s.length / 256 % 256 := by
        have := getD_of_drop buf _ off 0 hd
        simpa using this
      have hg2 : buf.getD (off + 1) 0 = s.length % 256 := by
        have := getD_of_drop buf _ off 1 hd
        simpa using this
      have hL : u16be (s.length / 256 % 256) (s.length % 256) = s.length := by
        unfold u16be
        omega
      have hstr := readString_ok buf off (by omega)
      rw [hg1, hg2, hL] at hstr
      exact ⟨by simp [tagId], .vstr ((buf.take (off + 2 + s.length)).drop (off + 2)),
        off + 2 + s.length, by rw [tagId, nbtRun_tag8]; simp only [hstr], by omega⟩
  | wlist hlen hhom hwf ih =>
    next xs =>
    intro buf off f k hd hk hf
    have hR : buf.length - off = k := by
      have h0 := length_of_drop buf _ off hd
      rw [List.length_take] at h0
      omega
    simp only [encTag, byteBytes, int32beBytes, List.length_append, List.length_cons,
      List.length_nil] at hk
    obtain ⟨f1, rfl⟩ : ∃ f1, f = f1 + 1 := ⟨f - 1, by omega⟩
    have hitrange : 0 ≤ listItemType xs ∧ listItemType xs ≤ 12 := by
      cases xs with
      | nil => simp [listItemType]
      | cons x _ =>
        have := tagId_range x
        simp [listItemType]
        omega
    rcases Nat.lt_or_ge k 1 with hk1 | hk1
    · exact Or.inl ⟨off + 1, by rw [tagId, nbtRun_tag9, readByte_err buf off (by omega)]⟩
    · obtain ⟨k1, rfl⟩ : ∃ k1, k = k1 + 1 := ⟨k - 1, by omega⟩
      simp only [encTag, byteBytes, List.cons_append, List.append_assoc,
        List.take_succ_cons] at hd
      have htag := readByte_at buf off ((listItemType xs) % 256).toNat _ hd
      rw [int8val_enc _ (by omega) (by omega)] at htag
      rcases Nat.lt_or_ge k1 4 with hk4 | hk4
      · refine Or.inl ⟨off + 1, ?_⟩
        rw [tagId, nbtRun_tag9]
        simp only [htag, readInt_err buf (off + 1) (by omega)]
      · obtain ⟨k5, rfl⟩ : ∃ k5, k1 = k5 + 4 := ⟨k1 - 4, by omega⟩
        have hd1 : buf.drop (off + 1) =
            (int32beBytes (xs.length : Int) ++ encList xs).take (k5 + 4) := by
          have := drop_shift buf [((listItemType xs) % 256).toNat] _ off
            (by simpa using hd)
          simpa using this
        have hd2 : buf.drop (off + 1) =
            int32beBytes (xs.length : Int) ++ (encList xs).take k5 := by
          rw [hd1, take_decomp _ _ _
            (by simp only [int32beBytes, List.length_cons, List.length_nil]; omega)]
          simp [int32beBytes]
        have hcnt := readInt_enc buf (off + 1) (xs.length : Int) _ hd2 (by omega) hlen
        have hd3 : buf.drop (off + 1 + 4) = (encList xs).take k5 := by
          have := drop_shift buf (int32beBytes (xs.length : Int)) _ (off + 1) hd2
          simpa [int32beBytes] using this
        have hres := nbtRun_elems_trunc buf (listItemType xs) xs hhom hwf
          (fun x hx => nbtRun_encTag x (hwf x hx)) ih (off + 1 + 4) f1 k5 []
          hd3 (by omega) (by omega)
        rcases hres with ⟨o, ho⟩ | ⟨val, o, hok, hgt⟩
        · refine Or.inl ⟨o, ?_⟩
          rw [tagId, nbtRun_tag9]
          simp only [htag, hcnt, Int.toNat_natCast, ho]
        · refine Or.inr ⟨by simp [tagId], val, o, ?_, hgt⟩
          rw [tagId, nbtRun_tag9]
          simp only [htag, hcnt, Int.toNat_natCast, hok]
  | wcompound hnm hwf ih =>
    next fs =>
    intro buf off f k hd hk hf
    have hR : buf.length - off = k := by
      have h0 := length_of_drop buf _ off hd
      rw [List.length_take] at h0
      omega
    obtain ⟨f1, rfl⟩ : ∃ f1, f = f1 + 1 := ⟨f - 1, by omega⟩
    simp only [encTag] at hd hk
    obtain ⟨o, ho⟩ := nbtRun_fields_trunc buf fs (fun p hp => (hnm p hp).1) hwf
      (fun p hp => nbtRun_encTag p.2 (hwf p hp)) ih off f1 k [] hd hk (by omega)
    exact Or.inl ⟨o, by rw [tagId, nbtRun_tag10, ho]⟩
  | wbyteArr hlen hx =>
    next xs =>
    intro buf off f k hd hk hf
    have hR : buf.length - off = k := by
      have h0 := length_of_drop buf _ off hd
      rw [List.length_take] at h0
      omega
    simp only [encTag, int32beBytes, List.length_append, List.length_cons,
      List.length_nil, List.length_map] at hk
    obtain ⟨f1, rfl⟩ : ∃ f1, f = f1 + 1 := ⟨f - 1, by omega⟩
    rcases Nat.lt_or_ge k 4 with hk4 | hk4
    · exact Or.inl ⟨off, by rw [tagId, nbtRun_tag7, readInt_err buf off (by omega)]⟩
    · obtain ⟨k4, rfl⟩ : ∃ k4, k = k4 + 4 := ⟨k - 4, by omega⟩
      simp only [encTag] at hd
      have hd2 : buf.drop off =
          int32beBytes (xs.length : Int) ++ (xs.map (fun i => (i % 256).toNat)).take k4 := by
        rw [hd, take_decomp _ _ _
          (by simp only [int32beBytes, List.length_cons, List.length_nil]; omega)]
        simp [int32beBytes]
      have hcnt := readInt_enc buf off (xs.length : Int) _ hd2 (by omega) hlen
      have hd3 : buf.drop (off + 4) = (xs.map (fun i => (i % 256).toNat)).take k4 := by
        have := drop_shift buf (int32beBytes (xs.length : Int)) _ off hd2
        simpa [int32beBytes] using this
      obtain ⟨o, ho⟩ := readByteLoop_err buf xs.length (off + 4) [] (by omega) (by omega)
      refine Or.inl ⟨o, ?_⟩
      rw [tagId, nbtRun_tag7]
      simp only [hcnt, Int.toNat_natCast, ho]
  | wintArr hlen hx =>
    next xs =>
    intro buf off f k hd hk hf
    have hR : buf.length - off = k := by
      have h0 := length_of_drop buf _ off hd
      rw [List.length_take] at h0
      omega
    simp only [encTag, int32beBytes, List.length_append, List.length_cons,
      List.length_nil, encInts_length] at hk
    obtain ⟨f1, rfl⟩ : ∃ f1, f = f1 + 1 := ⟨f - 1, by omega⟩
    rcases Nat.lt_or_ge k 4 with hk4 | hk4
    · exact Or.inl ⟨off, by rw [tagId, nbtRun_tag11, readInt_err buf off (by omega)]⟩
    · obtain ⟨k4, rfl⟩ : ∃ k4, k = k4 + 4 := ⟨k - 4, by omega⟩
      simp only [encTag] at hd
      have hd2 : buf.drop off =
          int32beBytes (xs.length : Int) ++ (encInts xs).take k4 := by
        rw [hd, take_decomp _ _ _
          (by simp only [int32beBytes, List.length_cons, List.length_nil]; omega)]
        simp [int32beBytes]
      have hcnt := readInt_enc buf off (xs.length : Int) _ hd2 (by omega) hlen
      obtain ⟨o, ho⟩ := readIntLoop_err buf xs.length (off + 4) [] (by omega) (by omega)
      refine Or.inl ⟨o, ?_⟩
      rw [tagId, nbtRun_tag11]
      simp only [hcnt, Int.toNat_natCast, ho]
  | wlongArr hlen hx =>
    next xs =>
    intro buf off f k hd hk hf
    have hR : buf.length - off = k := by
      have h0 := length_of_drop buf _ off hd
      rw [List.length_take] at h0
      omega
    simp only [encTag, int32beBytes, List.length_append, List.length_cons,
      List.length_nil, encLongs_length] at hk
    obtain ⟨f1, rfl⟩ : ∃ f1, f = f1 + 1 := ⟨f - 1, by omega⟩
    rcases Nat.lt_or_ge k 4 with hk4 | hk4
    · exact Or.inl ⟨off, by rw [tagId, nbtRun_tag12, readInt_err buf off (by omega)]⟩
    · obtain ⟨k4, rfl⟩ : ∃ k4, k = k4 + 4 := ⟨k - 4, by omega⟩
      simp only [encTag] at hd
      have hd2 : buf.drop off =
          int32beBytes (xs.length : Int) ++ (encLongs xs).take k4 := by
        rw [hd, take_decomp _ _ _
          (by simp only [int32beBytes, List.length_cons, List.length_nil]; omega)]
        simp [int32beBytes]
      have hcnt := readInt_enc buf off (xs.length : Int) _ hd2 (by omega) hlen
      obtain ⟨o, ho⟩ := readLongLoop_err buf xs.length (off + 4) [] (by omega) (by omega)
      refine Or.inl ⟨o, ?_⟩
      rw [tagId, nbtRun_tag12]
      simp only [hcnt, Int.toNat_natCast, ho]

/-- `parse` on any strict prefix of a well-formed root-compound document
fails with the out-of-range error: the compound's field loop cannot
terminate inside the buffer, so every truncation point is caught. -/
theorem parse_trunc_root (nm : List Nat) (fs : List (List Nat × Nbt))
    (hwf : WfNbt (.ncompound fs)) (hnm : nm.length < 65536) (m : Nat)
    (hm : m < (encodeRoot nm (.ncompound fs)).length) :
    ∃ o, NbtReader.parse ((encodeRoot nm (.ncompound fs)).take m) =
      .error (.outOfRange, o) := by
  have hrange := tagId_range (Nbt.ncompound fs)
  set B := (encodeRoot nm (.ncompound fs)).take m with hB
  have hlenB : B.length = m := by
    rw [hB, List.length_take]
    omega
  rcases Nat.lt_or_ge m 1 with hm1 | hm1
  · have hm0 : m = 0 := by omega
    refine ⟨0 + 1, ?_⟩
    have he := readByte_err B 0 (by omega)
    simp only [NbtReader.parse, he]
  · obtain ⟨m1, rfl⟩ : ∃ m1, m = m1 + 1 := ⟨m - 1, by omega⟩
    rcases Nat.lt_or_ge m1 2 with hm2 | hm2
    · -- the name's length prefix is truncated
      have hd : B.drop 0 = ((tagId (.ncompound fs)) % 256).toNat ::
          ((nm.length / 256 % 256 :: nm.length % 256 ::
            (nm ++ encTag (.ncompound fs))).take m1) := by
        rw [hB]
        simp only [List.drop_zero, encodeRoot, byteBytes, encStrBytes,
          List.cons_append, List.append_assoc, List.nil_append,
          List.take_succ_cons]
      have htag := readByte_at B 0 ((tagId (.ncompound fs)) % 256).toNat _ hd
      rw [int8val_enc _ (by omega) (by omega)] at htag
      rw [show (0 : Nat) + 1 = 1 from rfl] at htag
      refine ⟨1, ?_⟩
      simp only [NbtReader.parse, htag]
      rw [if_neg (by omega), readString_err B 1 (by omega)]
    · obtain ⟨m3, rfl⟩ : ∃ m3, m1 = m3 + 2 := ⟨m1 - 2, by omega⟩
      have hd3 : B.drop 0 = ((tagId (.ncompound fs)) % 256).toNat ::
          nm.length / 256 % 256 :: nm.length % 256 ::
          ((nm ++ encTag (.ncompound fs)).take m3) := by
        rw [hB, show m3 + 2 + 1 = m3 + 1 + 1 + 1 from by omega]
        simp only [List.drop_zero, encodeRoot, byteBytes, encStrBytes,
          List.cons_append, List.append_assoc, List.nil_append,
          List.take_succ_cons]
      have htag := readByte_at B 0 ((tagId (.ncompound fs)) % 256).toNat _ hd3
      rw [int8val_enc _ (by omega) (by omega)] at htag
      rw [show (0 : Nat) + 1 = 1 from rfl] at htag
      have hg1 : B.getD 1 0 = nm.length / 256 % 256 := by
        have := getD_of_drop B _ 0 1 hd3
        simpa using this
      have hg2 : B.getD (1 + 1) 0 = nm.length % 256 := by
        rw [show (1 : Nat) + 1 = 2 from rfl]
        have := getD_of_drop B _ 0 2 hd3
        simpa using this
      have hL : u16be (nm.length / 256 % 256) (nm.length % 256) = nm.length := by
        unfold u16be
        omega
      have hstr := readString_ok B 1 (by omega)
      rw [hg1, hg2, hL] at hstr
      rw [show (1 : Nat) + 2 + nm.length = 3 + nm.length from by omega] at hstr
      rcases Nat.lt_or_ge m3 nm.length with hm4 | hm4
      · -- the name bytes are truncated: the clamped read overruns
        obtain ⟨o3, herr⟩ := nbtRun_tag_pastEnd B (3 + nm.length)
          (tagId (.ncompound fs)) (4 * B.length + 4) (by omega) (by omega)
          (by omega) (by omega)
        refine ⟨o3, ?_⟩
        simp only [NbtReader.parse, htag]
        rw [if_neg (by omega)]
        simp only [hstr, readTagA, herr]
      · -- the name survives whole: the compound body itself is truncated
        have hdn : B.drop 3 = (nm ++ encTag (.ncompound fs)).take m3 := by
          have h3 := drop_shift B [((tagId (.ncompound fs)) % 256).toNat,
            nm.length / 256 % 256, nm.length % 256] _ 0 (by simpa using hd3)
          simpa using h3
        have hdn2 : B.drop 3 =
            nm ++ (encTag (.ncompound fs)).take (m3 - nm.length) := by
          rw [hdn, take_decomp _ _ m3 hm4]
        have hdv : B.drop (3 + nm.length) =
            (encTag (.ncompound fs)).take (m3 - nm.length) :=
          drop_shift B nm _ 3 hdn2
        have hkv : m3 - nm.length < (encTag (.ncompound fs)).length := by
          rw [encodeRoot, List.length_append, List.length_append] at hm
          simp only [byteBytes, encStrBytes, List.length_cons, List.length_nil,
            List.length_append] at hm
          omega
        have hres := nbtRun_truncTag (.ncompound fs) hwf B (3 + nm.length)
          (4 * B.length + 4) (m3 - nm.length) hdv hkv (by omega)
        rcases hres with ⟨o3, herr⟩ | ⟨hne, -⟩
        · refine ⟨o3, ?_⟩
          simp only [NbtReader.parse, htag]
          rw [if_neg (by omega)]
          simp only [hstr, readTagA, herr]
        · simp [tagId] at hne

/-- `parse` on a buffer of at least three bytes whose first byte decodes
to a tag id outside the handled range fails with the unknown-tag
error. -/
theorem parse_unknownTag (buf : List Nat) (h3 : 3 ≤ buf.length)
    (ht : int8val (buf.getD 0 0) < 0 ∨ 12 < int8val (buf.getD 0 0)) :
    ∃ o, NbtReader.parse buf =
      .error (.unknownTag (int8val (buf.getD 0 0)), o) := by
  have hb : NbtReader.readByte buf 0 = .ok (int8val (buf.getD 0 0), 1) := by
    unfold NbtReader.readByte
    rw [if_pos (by omega)]
  have hstr := readString_ok buf 1 (by omega)
  have hu := nbtRun_tagUnknown (4 * buf.length + 3) buf
    (1 + 2 + u16be (buf.getD 1 0) (buf.getD (1 + 1) 0)) (int8val (buf.getD 0 0)) ht
  refine ⟨1 + 2 + u16be (buf.getD 1 0) (buf.getD (1 + 1) 0), ?_⟩
  simp only [NbtReader.parse, hb]
  rw [if_neg (by omega)]
  simp only [hstr, readTagA]
  rw [show 4 * buf.length + 4 = (4 * buf.length + 3) + 1 from by omega, hu]

/-- C2 (amended): for the spec's mandated root shape — a compound — the
failure contract does hold: `parse` on any strict prefix of a
well-formed root-compound document fails with the out-of-range error;
and a root tag id outside the handled range 0..12 on a buffer long
enough to reach the tag dispatch fails with the unknown-tag error.  (The
original claim is refuted for non-compound roots by the string clamp
counterexample: a length field implying an out-of-range read yields a
partial result instead of an error.) -/
theorem c2_truncation_amended :
    (∀ (nm : List Nat) (fs : List (List Nat × Nbt)), WfNbt (.ncompound fs) →
      nm.length < 65536 → ∀ m, m < (encodeRoot nm (.ncompound fs)).length →
      ∃ o, NbtReader.parse ((encodeRoot nm (.ncompound fs)).take m) =
        .error (.outOfRange, o)) ∧
    (∀ buf : List Nat, 3 ≤ buf.length →
      (int8val (buf.getD 0 0) < 0 ∨ 12 < int8val (buf.getD 0 0)) →
      ∃ o, NbtReader.parse buf =
        .error (.unknownTag (int8val (buf.getD 0 0)), o)) :=
  ⟨fun nm fs hwf hnm m hm => parse_trunc_root nm fs hwf hnm m hm,
   fun buf h3 ht => parse_unknownTag buf h3 ht⟩

theorem c2_truncation_amended_witness :
    (WfNbt (.ncompound []) ∧ ([] : List Nat).length < 65536 ∧
      2 < (encodeRoot [] (.ncompound [])).length ∧
      ∃ o, NbtReader.parse ((encodeRoot [] (.ncompound [])).take 2) =
        .error (.outOfRange, o)) ∧
    (3 ≤ ([13, 0, 0] : List Nat).length ∧
      (int8val (([13, 0, 0] : List Nat).getD 0 0) < 0 ∨
        12 < int8val (([13, 0, 0] : List Nat).getD 0 0)) ∧
      ∃ o, NbtReader.parse [13, 0, 0] =
        .error (.unknownTag (int8val (([13, 0, 0] : List Nat).getD 0 0)), o)) :=
  ⟨⟨WfNbt.wcompound (by simp) (by simp), by decide, by decide,
    c2_truncation_amended.1 [] [] (WfNbt.wcompound (by simp) (by simp))
      (by decide) 2 (by decide)⟩,
   ⟨by decide, by decide,
    c2_truncation_amended.2 [13, 0, 0] (by decide) (by decide)⟩⟩

/- ### Reassembly as a homomorphism over chunking (C5) -/

theorem getD_take_lt (l : List Nat) (k i : Nat) (h : i < k) :
    (l.take k).getD i 0 = l.getD i 0 := by
  rw [List.getD_eq_getElem?_getD, List.getD_eq_getElem?_getD,
    List.getElem?_take_of_lt h]

theorem getD_append_lt (l r : List Nat) (i : Nat) (h : i < l.length) :
    (l ++ r).getD i 0 = l.getD i 0 := by
  rw [List.getD_eq_getElem?_getD, List.getD_eq_getElem?_getD,
    List.getElem?_append_left h]

/-- The length peek only looks at the first four cells. -/
theorem readInt32LE_congr (a b : List Nat)
    (h : ∀ i, i < 4 → a.getD i 0 = b.getD i 0) :
    readInt32LE a 0 = readInt32LE b 0 := by
  unfold readInt32LE
  simp only [Nat.zero_add]
  rw [h 0 (by omega), h 1 (by omega), h 2 (by omega), h 3 (by omega)]

/-- The length field written by `send` reads back exactly. -/
theorem readInt32LE_encodePacket (id ty : Int) (body : List Nat)
    (h : 10 + (body.length : Int) < 2147483648) :
    readInt32LE (encodePacket id ty body) 0 = 10 + body.length := by
  have h0 := readInt32LE_at [] (10 + (body.length : Int))
    (int32leBytes id ++ (int32leBytes ty ++ (body ++ [0, 0]))) (by omega) h
  simpa [encodePacket, List.append_assoc] using h0

/-- `subarray(0, e)` with `e` exactly the first region's length. -/
theorem jsSubarray_prefix (A B : List Nat) (e : Int)
    (he : e = (A.length : Int)) : jsSubarray (A ++ B) 0 e = A := by
  unfold jsSubarray jsIdx
  rw [if_neg (by omega), if_neg (by omega)]
  subst he
  simp only [Int.toNat_natCast, Int.toNat_zero, List.length_append,
    Nat.zero_min, List.drop_zero]
  rw [Nat.min_eq_left (Nat.le_add_right _ _)]
  exact List.take_left A B

/-- `subarray(s)` with `s` exactly the first region's length. -/
theorem jsSubarrayFrom_suffix (A B : List Nat) (s : Int)
    (hs : s = (A.length : Int)) : jsSubarrayFrom (A ++ B) s = B := by
  unfold jsSubarrayFrom jsIdx
  rw [if_neg (by omega)]
  subst hs
  simp only [Int.toNat_natCast, List.length_append]
  rw [Nat.min_eq_left (Nat.le_add_right _ _)]
  exact List.drop_left A B

/-- One loop iteration slices exactly one leading well-formed packet. -/
theorem processBufA_step (p B : List Nat) (hp : WfPacket p) (f : Nat) :
    processBufA (f + 1) (p ++ B) =
      ((p :: (processBufA f B).1), (processBufA f B).2) := by
  obtain ⟨id, ty, body, hi1, hi2, ht1, ht2, hl, hb, rfl⟩ := hp
  have hlen := encodePacket_length id ty body
  have hread : readInt32LE (encodePacket id ty body ++ B) 0 =
      10 + body.length := by
    have h0 := readInt32LE_at [] (10 + (body.length : Int))
      (int32leBytes id ++ (int32leBytes ty ++ (body ++ ([0, 0] ++ B))))
      (by omega) hl
    simpa [encodePacket, List.append_assoc] using h0
  have hcast : (10 : Int) + (body.length : Int) + 4 =
      ((encodePacket id ty body).length : Int) := by
    rw [hlen]
    push_cast
    omega
  have hpkt := jsSubarray_prefix (encodePacket id ty body) B _ hcast
  have hrest := jsSubarrayFrom_suffix (encodePacket id ty body) B _ hcast
  simp only [processBufA, hread]
  rw [if_pos (by simp only [List.length_append]; omega),
    if_neg (by
      simp only [List.length_append, hlen]
      push_cast
      omega), hpkt, hrest]

/-- The loop leaves a packet fragment untouched: either fewer than 12
bytes are buffered, or the declared length says the packet is not yet
complete. -/
theorem processBufA_stall (t : List Nat) (ht : PacketFrag t) (f : Nat) :
    processBufA f t = ([], t) := by
  cases f with
  | zero => rfl
  | succ f1 =>
    rcases ht with rfl | ⟨q, k, hq, hk, rfl⟩
    · simp [processBufA]
    · obtain ⟨id, ty, body, hi1, hi2, ht1, ht2, hl, hb, rfl⟩ := hq
      have hlen := encodePacket_length id ty body
      rcases Nat.lt_or_ge k 12 with h12 | h12
      · simp only [processBufA]
        rw [if_neg (by simp only [List.length_take]; omega)]
      · have hread : readInt32LE ((encodePacket id ty body).take k) 0 =
            10 + body.length := by
          rw [readInt32LE_congr ((encodePacket id ty body).take k)
            (encodePacket id ty body)
            (fun i hi => getD_take_lt _ k i (by omega))]
          exact readInt32LE_encodePacket id ty body hl
        simp only [processBufA, hread]
        rw [if_pos (by simp only [List.length_take]; omega),
          if_pos (by
            simp only [List.length_take]
            push_cast
            omega)]

/-- Processing a stream of complete packets followed by a fragment, with
at least one fuel unit per packet, decodes exactly those packets. -/
theorem processBufA_flatten (ps : List (List Nat)) (t : List Nat)
    (hps : ∀ p ∈ ps, WfPacket p) (ht : PacketFrag t) :
    ∀ f, ps.length ≤ f → processBufA f (ps.flatten ++ t) = (ps, t) := by
  induction ps with
  | nil =>
    intro f _
    simpa using processBufA_stall t ht f
  | cons p ps ih =>
    intro f hf
    simp only [List.length_cons] at hf
    obtain ⟨f1, rfl⟩ : ∃ f1, f = f1 + 1 := ⟨f - 1, by omega⟩
    rw [show (p :: ps).flatten ++ t = p ++ (ps.flatten ++ t) from by
        simp [List.flatten_cons],
      processBufA_step p (ps.flatten ++ t) (hps p (by simp)) f1,
      ih (fun q hq => hps q (by simp [hq])) f1 (by omega)]

/-- Each well-formed packet occupies at least one byte, so the
`buf.length + 1` fuel of `processBuf` covers the whole stream. -/
theorem packets_length_le (ps : List (List Nat))
    (h : ∀ p ∈ ps, WfPacket p) : ps.length ≤ ps.flatten.length := by
  induction ps with
  | nil => simp
  | cons p ps ih =>
    obtain ⟨id, ty, body, _, _, _, _, _, _, hpe⟩ := h p (by simp)
    have h1 : 1 ≤ p.length := by
      rw [hpe, encodePacket_length]
      omega
    have h2 := ih (fun q hq => h q (by simp [hq]))
    simp only [List.flatten_cons, List.length_append, List.length_cons]
    omega

/-- The single-shot reassembly of a packet stream plus fragment. -/
theorem processBuf_flatten (ps : List (List Nat)) (t : List Nat)
    (hps : ∀ p ∈ ps, WfPacket p) (ht : PacketFrag t) :
    processBuf (ps.flatten ++ t) = (ps, t) := by
  apply processBufA_flatten ps t hps ht
  have := packets_length_le ps hps
  simp only [List.length_append]
  omega

/-- A strict prefix of a well-formed packet cannot contain a whole
well-formed packet: both would declare the same length in their shared
first four bytes. -/
theorem frag_no_packet (r : List Nat) (hr : PacketFrag r)
    (ps : List (List Nat)) (t : List Nat)
    (hps : ∀ p ∈ ps, WfPacket p) (he : r = ps.flatten ++ t) :
    ps = [] ∧ r = t := by
  cases ps with
  | nil => exact ⟨rfl, by simpa using he⟩
  | cons p ps' =>
    exfalso
    obtain ⟨id, ty, body, hi1, hi2, ht1, ht2, hl, hb, hpe⟩ := hps p (by simp)
    have hplen : p.length = 14 + body.length := by
      rw [hpe, encodePacket_length]
    rcases hr with rfl | ⟨q, k, hq, hk, rfl⟩
    · have := congrArg List.length he
      simp only [List.length_nil, List.flatten_cons, List.append_assoc,
        List.length_append] at this
      omega
    · obtain ⟨id2, ty2, body2, hj1, hj2, hu1, hu2, hl2, hb2, hqe⟩ := hq
      have hqlen : q.length = 14 + body2.length := by
        rw [hqe, encodePacket_length]
      have hre : q.take k = p ++ (ps'.flatten ++ t) := by
        simpa [List.flatten_cons, List.append_assoc] using he
      have hkp : p.length ≤ k := by
        have := congrArg List.length hre
        simp only [List.length_take, List.length_append] at this
        omega
      have hpq : readInt32LE p 0 = readInt32LE q 0 := by
        rw [readInt32LE_congr p (q.take k) (fun i hi => by
          rw [hre]
          exact (getD_append_lt p _ i (by omega)).symm)]
        exact readInt32LE_congr _ q (fun i hi => getD_take_lt q k i (by omega))
      rw [hpe, hqe, readInt32LE_encodePacket id ty body hl,
        readInt32LE_encodePacket id2 ty2 body2 hl2] at hpq
      have := congrArg List.length hre
      simp only [List.length_take, List.length_append] at this
      omega

/-- Any split point of a packet stream decomposes into the packets that
lie wholly before it, a fragment at the boundary, and the rest. -/
theorem split_stream (ps : List (List Nat)) :
    ∀ (t X Y : List Nat), (∀ p ∈ ps, WfPacket p) → PacketFrag t →
    X ++ Y = ps.flatten ++ t →
    ∃ ps1 ps2 t1, ps = ps1 ++ ps2 ∧ X = ps1.flatten ++ t1 ∧ PacketFrag t1 ∧
      t1 ++ Y = ps2.flatten ++ t := by
  induction ps with
  | nil =>
    intro t X Y _ ht he
    simp only [List.flatten_nil, List.nil_append] at he
    refine ⟨[], [], X, rfl, by simp, ?_, by rw [he]; simp⟩
    rcases ht with rfl | ⟨q, k, hq, hk, rfl⟩
    · exact Or.inl (List.append_eq_nil.mp he).1
    · right
      refine ⟨q, min X.length k, hq, by omega, ?_⟩
      rw [← List.take_take, ← he, List.take_left]
  | cons p ps ih =>
    intro t X Y hps ht he
    simp only [List.flatten_cons, List.append_assoc] at he
    rcases Nat.lt_or_ge X.length p.length with hxl | hxl
    · refine ⟨[], p :: ps, X, rfl, by simp, ?_, by
        rw [he]
        simp [List.flatten_cons, List.append_assoc]⟩
      right
      refine ⟨p, X.length, hps p (by simp), hxl, ?_⟩
      have hx : X = (X ++ Y).take X.length := (List.take_left X Y).symm
      rw [hx, he, List.take_append_eq_append_take,
        Nat.sub_eq_zero_of_le (Nat.le_of_lt hxl)]
      simp
    · have hXp : X.take p.length = p := by
        have h1 : (X ++ Y).take p.length = X.take p.length := by
          rw [List.take_append_eq_append_take,
            Nat.sub_eq_zero_of_le hxl]
          simp
        rw [← h1, he, List.take_left]
      have hXd : X.drop p.length ++ Y = ps.flatten ++ t := by
        have h1 : (X ++ Y).drop p.length = X.drop p.length ++ Y := by
          rw [List.drop_append_eq_append_drop,
            Nat.sub_eq_zero_of_le hxl]
          simp
        rw [← h1, he, List.drop_left]
      obtain ⟨ps1, ps2, t1, hsp, hX1, hfr, hrem⟩ :=
        ih t (X.drop p.length) Y (fun q hq => hps q (by simp [hq])) ht hXd
      refine ⟨p :: ps1, ps2, t1, by rw [hsp, List.cons_append], ?_, hfr, hrem⟩
      conv_lhs => rw [← List.take_append_drop p.length X]
      rw [hXp, hX1]
      simp [List.flatten_cons, List.append_assoc]

/-- The chunk-fold invariant: starting from already-delivered packets and
a fragment residue, feeding any chunking of the rest of the stream
delivers exactly the stream's packets and leaves the trailing
fragment. -/
theorem feedChunks_inv :
    ∀ (cs : List (List Nat)) (done : List (List Nat)) (r : List Nat)
      (ps : List (List Nat)) (t : List Nat),
      (∀ p ∈ ps, WfPacket p) → PacketFrag r → PacketFrag t →
      r ++ cs.flatten = ps.flatten ++ t →
      feedChunks (done, r) cs = (done ++ ps, t) := by
  intro cs
  induction cs with
  | nil =>
    intro done r ps t hps hr ht he
    simp only [List.flatten_nil, List.append_nil] at he
    obtain ⟨rfl, rfl⟩ := frag_no_packet r hr ps t hps he
    simp [feedChunks]
  | cons c cs ih =>
    intro done r ps t hps hr ht he
    have he2 : (r ++ c) ++ cs.flatten = ps.flatten ++ t := by
      rw [List.append_assoc]
      simpa [List.flatten_cons] using he
    obtain ⟨ps1, ps2, t1, rfl, hX1, hfr1, hrem⟩ :=
      split_stream ps t (r ++ c) cs.flatten hps ht he2
    have hproc : processBuf (r ++ c) = (ps1, t1) := by
      rw [hX1]
      exact processBuf_flatten ps1 t1 (fun p hp => hps p (by simp [hp])) hfr1
    have hstep : feedChunks (done, r) (c :: cs) = feedChunks (done ++ ps1, t1) cs := by
      simp only [feedChunks, List.foldl_cons, hproc]
    rw [hstep,
      ih (done ++ ps1) t1 ps2 t (fun p hp => hps p (by simp [hp])) hfr1 ht hrem,
      List.append_assoc]

/-- C5: the reassembly step is a homomorphism over byte-stream
concatenation.  For every sequence of well-formed packets with a
trailing fragment, and every chunking of the concatenated stream
(splits anywhere, including inside the 4-byte length or id headers),
feeding the chunks one at a time through the `handleData` loop decodes
exactly the stream's packets with the fragment as residual buffer —
the same result as processing the whole stream in one read. -/
theorem c5_reassembly_homomorphism (ps cs : List (List Nat)) (t : List Nat)
    (hps : ∀ p ∈ ps, WfPacket p) (ht : PacketFrag t)
    (he : cs.flatten = ps.flatten ++ t) :
    feedChunks ([], []) cs = (ps, t) ∧
    processBuf (ps.flatten ++ t) = (ps, t) := by
  refine ⟨?_, processBuf_flatten ps t hps ht⟩
  have h0 := feedChunks_inv cs [] [] ps t hps (Or.inl rfl) ht (by simpa using he)
  simpa using h0

/-- The spec's concrete scenario: a 2-packet payload cut into 3 chunks,
the first boundary inside the first packet's 12-byte header. -/
def c5p1 : List Nat := encodePacket 1 0 [65]

def c5p2 : List Nat := encodePacket 2 0 [66]

def c5cs : List (List Nat) :=
  [(c5p1 ++ c5p2).take 5, ((c5p1 ++ c5p2).drop 5).take 12, (c5p1 ++ c5p2).drop 17]

theorem c5_reassembly_homomorphism_witness :
    (∀ p ∈ [c5p1, c5p2], WfPacket p) ∧ PacketFrag [] ∧
    c5cs.flatten = ([c5p1, c5p2] : List (List Nat)).flatten ++ [] ∧
    (feedChunks ([], []) c5cs = ([c5p1, c5p2], []) ∧
      processBuf (([c5p1, c5p2] : List (List Nat)).flatten ++ []) =
        ([c5p1, c5p2], [])) := by
  have hwf : ∀ p ∈ [c5p1, c5p2], WfPacket p := by
    intro p hp
    simp only [List.mem_cons, List.not_mem_nil, or_false] at hp
    rcases hp with rfl | rfl
    · exact ⟨1, 0, [65], by decide, by decide, by decide, by decide, by decide,
        by intro b hb; simp only [List.mem_singleton] at hb; omega, rfl⟩
    · exact ⟨2, 0, [66], by decide, by decide, by decide, by decide, by decide,
        by intro b hb; simp only [List.mem_singleton] at hb; omega, rfl⟩
  exact ⟨hwf, Or.inl rfl, by decide,
    c5_reassembly_homomorphism [c5p1, c5p2] c5cs [] hwf (Or.inl rfl) (by decide)⟩

theorem c3_disconnect_amended_witness :
    (⟨true, 5, true, [7], []⟩ : RconState).socketPresent = true ∧
    (⟨true, 5, true, [7], []⟩ : RconState).disconnect =
      (⟨true, 5, true, [7], []⟩, [.socketEnd, .socketDestroy]) :=
  ⟨rfl, (c3_disconnect_amended ⟨true, 5, true, [7], []⟩).2.1 rfl⟩

theorem c8_sendCommand_amended_witness :
    (⟨true, 5, false, [], []⟩ : RconState).socketPresent = true ∧
    (⟨true, 5, false, [], []⟩ : RconState).sendCommand [99] =
      (⟨true, 6, false, [5], []⟩, [.setTimer 5, .write (encodePacket 5 2 [99])]) :=
  ⟨rfl, (c8_sendCommand_amended ⟨true, 5, false, [], []⟩ [99]).2.1 rfl⟩

theorem c6_correlation_by_id_witness :
    ((-2147483648 : Int) ≤ 7 ∧ (7 : Int) < 2147483648 ∧ (7 : Int) ∈ [(7 : Int)]) ∧
    deliver [7] (encodePacket 7 0 [65]) =
      (([(7 : Int)]).erase 7, [.clearTimer 7, .resolve 7 [65]]) :=
  ⟨⟨by decide, by decide, by decide⟩,
   c6_correlation_by_id.1 [7] 7 0 [65] (by decide) (by decide) (by decide)⟩

theorem c9_cursor_amended_witness :
    ((0 : Nat) < ([18, 52] : List Nat).length) ∧
    (NbtReader.readByte [18, 52] 0 =
      .ok (int8val (([18, 52] : List Nat).getD 0 0), 0 + 1) ∧
      0 + 1 ≤ ([18, 52] : List Nat).length) :=
  ⟨by decide, (c9_cursor_amended [18, 52] 0).1 (by decide)⟩
